import Mathlib

/-!
Verification development for the ALMA-EDM-Oracle repository.

The Python source (EDM/EDMTree.py and EDM/EDM.py) is shallowly embedded below:
Python dictionaries become association lists, the node store of `EDMTree`
becomes a list indexed by the node key, dynamic Python values become the
`PyVal` inductive, generators become functions producing event lists (with an
explicit fuel argument bounding the recursion depth; all theorems are stated
at a fuel that is proved or checked to be sufficient), and code paths that
raise exceptions return `Except.error`.
-/

namespace EDMOracle

/-! ## Python string primitives -/

/-- Characters matched by Python's `str.split()` / `str.strip()` and by the
regular-expression class `\s` (ASCII range, which covers all inputs here). -/
def pyIsSpace (c : Char) : Bool :=
  c = ' ' || c = '\t' || c = '\n' || c = '\r' || c = '\x0b' || c = '\x0c'

/-- Python `str.strip()` on a character list. -/
def stripChars (cs : List Char) : List Char :=
  ((cs.dropWhile pyIsSpace).reverse.dropWhile pyIsSpace).reverse

/-- Python `str.strip()`. -/
def pyStrip (s : String) : String :=
  String.mk (stripChars s.toList)

/-- Python `str.strip('.')`: remove leading and trailing dots. -/
def pyStripDots (s : String) : String :=
  String.mk (((s.toList.dropWhile (· = '.')).reverse.dropWhile (· = '.')).reverse)

/-- Python `str.split()` (no argument): split on whitespace runs, dropping
empty pieces.  `acc` holds the characters of the current word, reversed. -/
def pySplitWsAux : List Char → List Char → List String
  | [], acc => if acc.isEmpty then [] else [String.mk acc.reverse]
  | c :: cs, acc =>
    if pyIsSpace c then
      if acc.isEmpty then pySplitWsAux cs []
      else String.mk acc.reverse :: pySplitWsAux cs []
    else pySplitWsAux cs (c :: acc)

def pySplitWs (s : String) : List String := pySplitWsAux s.toList []

/-- Python `str.split(sep)` for a single-character separator: splits at every
occurrence, keeping empty pieces (`'a||b'.split('|') = ['a','','b']`). -/
def pySplitCharAux (sep : Char) : List Char → List Char → List String
  | [], acc => [String.mk acc.reverse]
  | c :: cs, acc =>
    if c = sep then String.mk acc.reverse :: pySplitCharAux sep cs []
    else pySplitCharAux sep cs (c :: acc)

def pySplitChar (s : String) (sep : Char) : List String :=
  pySplitCharAux sep s.toList []

/-- Python truthiness of a string. -/
def strTruthy (s : String) : Bool := !s.isEmpty

/-- ASCII `str.lower` on one character (kernel-reducible). -/
def pyCharLower (c : Char) : Char :=
  if 'A' ≤ c && c ≤ 'Z' then Char.ofNat (c.toNat + 32) else c

/-- ASCII `str.upper` on one character (kernel-reducible). -/
def pyCharUpper (c : Char) : Char :=
  if 'a' ≤ c && c ≤ 'z' then Char.ofNat (c.toNat - 32) else c

/-- Python `str.lower()` (ASCII range). -/
def pyToLower (s : String) : String := String.mk (s.toList.map pyCharLower)

/-- Python `str.upper()` (ASCII range). -/
def pyToUpper (s : String) : String := String.mk (s.toList.map pyCharUpper)

/-! ## Python values

Attribute dictionaries in the source hold strings, `None` (SQL NULL),
nested token lists produced by `splitOnBracketsOrSpace`, and `datetime`
values produced by the timestamp decoder. -/

/-- Result of parsing a `'%Y/%m/%d-%H:%M:%S'` timestamp. -/
structure PyDateTime where
  year : Nat
  month : Nat
  day : Nat
  hour : Nat
  minute : Nat
  second : Nat
deriving DecidableEq, Repr

/-- A dynamic Python value as used by the EDM attribute dictionaries. -/
inductive PyVal where
  | str (s : String)
  | list (l : List PyVal)
  | time (t : PyDateTime)
  | none
deriving Repr

-- Decidable equality for `PyVal` (hand-written because of the nested
-- `List PyVal`).
mutual

def PyVal.decEq : (a b : PyVal) → Decidable (a = b)
  | .str a, .str b =>
    if h : a = b then isTrue (by rw [h]) else isFalse (by simp [h])
  | .list a, .list b =>
    match PyVal.decEqList a b with
    | isTrue h => isTrue (by rw [h])
    | isFalse h => isFalse (fun hh => h (by injection hh))
  | .time a, .time b =>
    if h : a = b then isTrue (by rw [h]) else isFalse (by simp [h])
  | .none, .none => isTrue rfl
  | .str _, .list _ => isFalse (by simp)
  | .str _, .time _ => isFalse (by simp)
  | .str _, .none => isFalse (by simp)
  | .list _, .str _ => isFalse (by simp)
  | .list _, .time _ => isFalse (by simp)
  | .list _, .none => isFalse (by simp)
  | .time _, .str _ => isFalse (by simp)
  | .time _, .list _ => isFalse (by simp)
  | .time _, .none => isFalse (by simp)
  | .none, .str _ => isFalse (by simp)
  | .none, .list _ => isFalse (by simp)
  | .none, .time _ => isFalse (by simp)

def PyVal.decEqList : (a b : List PyVal) → Decidable (a = b)
  | [], [] => isTrue rfl
  | [], _ :: _ => isFalse (by simp)
  | _ :: _, [] => isFalse (by simp)
  | a :: as, b :: bs =>
    match PyVal.decEq a b, PyVal.decEqList as bs with
    | isTrue h1, isTrue h2 => isTrue (by rw [h1, h2])
    | isFalse h1, _ => isFalse (fun hh => by injection hh with h _; exact h1 h)
    | isTrue _, isFalse h2 =>
      isFalse (fun hh => by injection hh with _ h; exact h2 h)

end

instance : DecidableEq PyVal := PyVal.decEq

deriving instance DecidableEq for Except

/-- Python truthiness of a `PyVal`. -/
def pyTruthy : PyVal → Bool
  | .str s => strTruthy s
  | .list l => !l.isEmpty
  | .time _ => true
  | .none => false

/-- Truthiness of a `dict.get` result (`None` for a missing key is falsy). -/
def truthyO : Option PyVal → Bool
  | some v => pyTruthy v
  | Option.none => false

/-- A Python dict as an association list; `dictSet` mirrors `d[k] = v`
(overwrite in place, preserving insertion order, else append). -/
def dictSet (d : List (String × PyVal)) (k : String) (v : PyVal) :
    List (String × PyVal) :=
  match d with
  | [] => [(k, v)]
  | (k', v') :: rest =>
    if k' = k then (k, v) :: rest else (k', v') :: dictSet rest k v

/-- Python `d.get(k)` / `d.get(k, default)` via `Option`. -/
def dictGet (d : List (String × PyVal)) (k : String) : Option PyVal :=
  match d with
  | [] => Option.none
  | (k', v') :: rest => if k' = k then some v' else dictGet rest k

/-- Merge `{**a, **b}`: entries of `b` overwrite same-keyed entries of `a`. -/
def dictMerge (a b : List (String × PyVal)) : List (String × PyVal) :=
  b.foldl (fun d kv => dictSet d kv.1 kv.2) a

abbrev AttrMap := List (String × PyVal)

/-! ## Tokenizer: `NestedParser` and `splitOnBracketsOrSpace` (EDM.py 53-109)

The `re.Scanner` of `NestedParser` tries, at each position: `\{` (push a new
child node), `\}` (pop to the parent), `\s+` (skip), and lazily `.+?` up to
the next brace or end of input (append the stripped text to the current
node).  Consequently every maximal brace-free character run contributes at
most one text token: its content stripped of surrounding whitespace, and
nothing when the run is all whitespace.  Popping past the root sets
`current = None`; any later text or brace then raises `AttributeError`,
while trailing whitespace or end of input is harmless and `parse` still
returns the root node's list. -/

/-- Scanner state after `current` became `None` (an unmatched `}` popped past
the root): only whitespace or end of input may follow. -/
def deadScan : List Char → List PyVal → Except String (List PyVal)
  | [], root => .ok root
  | c :: cs, root =>
    if pyIsSpace c then deadScan cs root
    else .error "AttributeError: NoneType has no attribute"

/-- Close all still-open bracket groups at end of input: each unclosed child
was already appended to its parent when `{` was scanned, so folding the
zipper stack rebuilds exactly the root list the Python parser returns. -/
def closeAll : List PyVal → List (List PyVal) → List PyVal
  | cur, [] => cur
  | cur, parent :: rest => closeAll (parent ++ [PyVal.list cur]) rest

/-- Append the pending brace-free run `tok` (accumulated reversed) as one
stripped text token; an all-whitespace run was consumed by `\s+` and adds
nothing. -/
def flushTok (cur : List PyVal) (tok : List Char) : List PyVal :=
  let s := stripChars tok.reverse
  if s.isEmpty then cur else cur ++ [PyVal.str (String.mk s)]

/-- The scanner loop of `NestedParser.parse` (a zipper: `tok` the pending
text run reversed, `cur` the node being filled, `stack` the partially filled
ancestors, bottom = root). -/
def scanAux : List Char → List Char → List PyVal → List (List PyVal) →
    Except String (List PyVal)
  | [], tok, cur, stack => .ok (closeAll (flushTok cur tok) stack)
  | c :: cs, tok, cur, stack =>
    if c = '{' then scanAux cs [] [] (flushTok cur tok :: stack)
    else if c = '}' then
      match stack with
      | parent :: rest =>
        scanAux cs [] (parent ++ [PyVal.list (flushTok cur tok)]) rest
      | [] => deadScan cs (flushTok cur tok)
    else scanAux cs (c :: tok) cur stack

/-- `NestedParser(left='\{', right='\}').parse(content)`. -/
def nestedParse (content : String) : Except String (List PyVal) :=
  scanAux content.toList [] [] []

/-- `splitOnBracketsOrSpace` (EDM.py 83-109): post-process the parsed items;
plain strings split into words, singleton groups collapse to their single
element, empty groups become an empty string, other groups stay as lists. -/
def splitOnBracketsOrSpace (inputStr : String) : Except String (List PyVal) :=
  if strTruthy inputStr then
    match nestedParse inputStr with
    | .error e => .error e
    | .ok items =>
      .ok (items.flatMap fun item =>
        match item with
        | .str s => (pySplitWs s).map PyVal.str
        | .list [x] => [x]
        | .list [] => [PyVal.str ""]
        | .list l => [PyVal.list l]
        | other => [other])
  else .ok []

/-- `splitOnBracketsOrSpace` applied to an attribute value: a falsy value
(`None`, `''`, `[]`) yields `[]`; a truthy non-string cannot be scanned
(`re.Scanner.scan` raises `TypeError`). -/
def splitOnBracketsOrSpaceV (v : PyVal) : Except String (List PyVal) :=
  match v with
  | .str s => splitOnBracketsOrSpace s
  | other => if pyTruthy other then .error "TypeError: expected string" else .ok []

example : splitOnBracketsOrSpace "a {b c} d" =
    .ok [.str "a", .str "b c", .str "d"] := by decide

example : splitOnBracketsOrSpace "a {{b} {c d}} e" =
    .ok [.str "a", .list [.list [.str "b"], .list [.str "c d"]], .str "e"] := by
  decide

/-! ## Field decoders (EDM.py 771-1015) -/

/-- `parsePairs` (EDM.py 771-791): consume the token list as alternating
key/value pairs; recognized string keys copy their value to the canonical
name; an odd-length tail stops without error (the failing `pop` is caught);
an unhashable (list) key raises `TypeError` out of `lookup.get`. -/
def parsePairs (values : List PyVal) (lookup : List (String × String))
    (out : AttrMap) : Except String AttrMap :=
  match values with
  | [] => .ok out
  | [_] => .ok out
  | k :: v :: rest =>
    match k with
    | .list _ => .error "TypeError: unhashable type"
    | .str ks =>
      match lookup.lookup ks with
      | some field => parsePairs rest lookup (dictSet out field v)
      | Option.none => parsePairs rest lookup out
    | _ => parsePairs rest lookup out

/-- Replace `-` and `.` by `|` (`str.translate` in `parseAlmaDocNum`). -/
def pyTranslateDashDot (s : String) : String :=
  String.mk (s.toList.map fun c => if c = '-' || c = '.' then '|' else c)

/-- `parseAlmaDocNum` (EDM.py 880-899): split the document number on `-`/`.`;
inside the `try` block `DOC_TYPE` is assigned from the last component before
`DOC_VERSION` is read from the second-to-last, so a one-component number
keeps `DOC_TYPE` while the `IndexError` on `DOC_VERSION` is swallowed. -/
def parseAlmaDocNum (s : String) : AttrMap :=
  let base := [("DOC_TYPE", PyVal.str ""), ("DOC_VERSION", PyVal.str "")]
  if strTruthy s then
    let parts := pySplitChar (pyTranslateDashDot s) '|'
    let m1 := dictSet base "DOC_TYPE" (.str (parts.getLastD ""))
    if parts.length ≥ 2 then
      dictSet m1 "DOC_VERSION" (.str (parts.getD (parts.length - 2) ""))
    else m1
  else base

/-- `parseAlmaDocNum` on an attribute value (`None`/`''` falsy; a truthy
non-string has no `.translate` and raises). -/
def parseAlmaDocNumV : Option PyVal → Except String AttrMap
  | some (.str s) => .ok (parseAlmaDocNum s)
  | some v =>
    if pyTruthy v then .error "AttributeError: translate"
    else .ok [("DOC_TYPE", PyVal.str ""), ("DOC_VERSION", PyVal.str "")]
  | Option.none => .ok [("DOC_TYPE", PyVal.str ""), ("DOC_VERSION", PyVal.str "")]

/-- `parseUploadFileInfo` (EDM.py 901-920). -/
def parseUploadFileInfo (uploadFileInfo : String) : Except String AttrMap := do
  let base := [("FILE_NAME_UL", PyVal.str ""), ("UPLOAD_BY", PyVal.str ""),
               ("UPLOAD_DATETIME", PyVal.str "")]
  if strTruthy uploadFileInfo then
    let upload ← splitOnBracketsOrSpace uploadFileInfo
    let m := if upload.length ≥ 1 then
        dictSet base "FILE_NAME_UL" (upload.getD 0 .none) else base
    let m := if upload.length ≥ 3 then
        dictSet m "UPLOAD_BY" (upload.getD 2 .none) else m
    let m := if upload.length ≥ 4 then
        dictSet m "UPLOAD_DATETIME" (upload.getD 3 .none) else m
    return m
  else return base

def parseUploadFileInfoV : Option PyVal → Except String AttrMap
  | some (.str s) => parseUploadFileInfo s
  | some v =>
    if pyTruthy v then .error "TypeError: expected string"
    else .ok [("FILE_NAME_UL", PyVal.str ""), ("UPLOAD_BY", PyVal.str ""),
              ("UPLOAD_DATETIME", PyVal.str "")]
  | Option.none => .ok [("FILE_NAME_UL", PyVal.str ""), ("UPLOAD_BY", PyVal.str ""),
                        ("UPLOAD_DATETIME", PyVal.str "")]

/-- Index of the last character satisfying `p` (`str.rfind` style). -/
def lastIndexWhere (p : Char → Bool) : List Char → Option Nat
  | [] => Option.none
  | c :: cs =>
    match lastIndexWhere p cs with
    | some j => some (j + 1)
    | Option.none => if p c then some 0 else Option.none

/-- The extension part of `os.path.splitext` (ntpath: seps `\` and `/`,
extension separator `.`; leading dots of the base name never start an
extension, so `.bashrc` has none). -/
def pySplitextExt (s : String) : String :=
  let cs := s.toList
  let start := match lastIndexWhere (fun c => c = '\\' || c = '/') cs with
    | some i => i + 1
    | Option.none => 0
  match lastIndexWhere (fun c => c = '.') cs with
  | Option.none => ""
  | some d =>
    if start ≤ d &&
        ((List.range' start (d - start)).any fun i => cs.getD i '.' ≠ '.') then
      String.mk (cs.drop d)
    else ""

/-- `parseFilename` (EDM.py 922-951). -/
def parseFilename (filename : String) : AttrMap :=
  let base := [("FILE_TYPE", PyVal.str "")]
  if strTruthy filename then
    let ext := pyToLower (pyStripDots (pySplitextExt filename))
    let ft :=
      if ext = "pdf" then "Adobe PDF"
      else if ext = "dwg" then "AUTOCAD DWG"
      else if ext = "doc" || ext = "docx" || ext = "docm" then "MS Word"
      else if ext = "ppt" || ext = "pptx" || ext = "pptm" then "MS PowerPoint"
      else if ext = "xls" || ext = "xlsx" || ext = "xlsm" || ext = "xlst" then
        "MS Excel"
      else if ext = "mpp" || ext = "mpt" then "MS Project"
      else if ext = "vsd" || ext = "vsdx" || ext = "vsdm" then "MS Visio"
      else if ext = "txt" || ext = "csv" || ext = "ini" then "Txt"
      else pyToUpper ext
    dictSet base "FILE_TYPE" (.str ft)
  else base

def parseFilenameV : Option PyVal → Except String AttrMap
  | some (.str s) => .ok (parseFilename s)
  | some v =>
    if pyTruthy v then .error "TypeError: splitext expects str"
    else .ok [("FILE_TYPE", PyVal.str "")]
  | Option.none => .ok [("FILE_TYPE", PyVal.str "")]

/-- Word character of the regex class `\w` (ASCII range). -/
def pyIsWordChar (c : Char) : Bool := c.isAlphanum || c = '_'

/-- Tail matcher for `nrc[\w\-\.]*.ca` after the literal `nrc`: a run of
class characters, one arbitrary character (the unescaped dot), then `ca`. -/
def nrcTail : List Char → Bool
  | [] => false
  | c :: rest =>
    (match rest with
     | 'c' :: 'a' :: _ => true
     | _ => false) ||
    ((pyIsWordChar c || c = '-' || c = '.') && nrcTail rest)

/-- `re.search('nrao|nrc[\w\-\.]*.ca', domain)`. -/
def searchNraoNrc (domain : String) : Bool :=
  let cs := domain.toList
  (List.range (cs.length + 1)).any fun i =>
    let suf := cs.drop i
    (suf.take 4 = ['n', 'r', 'a', 'o']) ||
    (suf.take 3 = ['n', 'r', 'c'] && nrcTail (suf.drop 3))

/-- Does `cs` end with the pattern (where `Option.none` entries are the
unescaped-dot wildcard)? -/
def endsWithPat (cs : List Char) (pat : List (Option Char)) : Bool :=
  pat.length ≤ cs.length &&
  ((cs.drop (cs.length - pat.length)).zip pat).all fun cp =>
    match cp.2 with
    | some d => cp.1 = d
    | Option.none => true

/-- Regex `$`: matches at the end of the string or just before a final
newline. -/
def reDollarEnds (cs : List Char) (pat : List (Option Char)) : Bool :=
  endsWithPat cs pat ||
  (match cs.getLast? with
   | some '\n' => endsWithPat cs.dropLast pat
   | _ => false)

/-- `re.search('(eso.org|\.es|\.fr|\.ac.uk|\.nl|\.it|\.se)$', domain)`
(the dots of `eso.org` and the one between `ac` and `uk` are unescaped). -/
def searchEsoDomains (domain : String) : Bool :=
  let cs := domain.toList
  reDollarEnds cs [some 'e', some 's', some 'o', Option.none, some 'o',
                   some 'r', some 'g'] ||
  reDollarEnds cs [some '.', some 'e', some 's'] ||
  reDollarEnds cs [some '.', some 'f', some 'r'] ||
  reDollarEnds cs [some '.', some 'a', some 'c', Option.none, some 'u',
                   some 'k'] ||
  reDollarEnds cs [some '.', some 'n', some 'l'] ||
  reDollarEnds cs [some '.', some 'i', some 't'] ||
  reDollarEnds cs [some '.', some 's', some 'e']

/-- `re.search('\.ac\.jp$', domain)`. -/
def searchAcJp (domain : String) : Bool :=
  reDollarEnds domain.toList (['.', 'a', 'c', '.', 'j', 'p'].map some)

/-- `parseLogo` (EDM.py 954-999). -/
def parseLogo (logo : String) : Except String AttrMap := do
  let base := [("POSTED_BY", PyVal.str ""), ("ISS_AGENCY", PyVal.str "")]
  if strTruthy logo then
    let items ← splitOnBracketsOrSpace logo
    let mpb ←
      if items.length ≥ 1 then
        match items.getD 0 .none with
        | .str s0 =>
          let pb := String.intercalate "." (pySplitWs s0)
          pure (dictSet base "POSTED_BY" (.str pb), pb)
        | _ => Except.error "AttributeError: split"
      else pure (base, "")
    let m := mpb.1
    let postedBy := mpb.2
    if items.length ≥ 6 then
      match items.getD 5 .none with
      | .str s5 =>
        let email := pySplitChar s5 '@'
        if email.length ≥ 2 then
          let domain := pyToLower (email.getD 1 "")
          let agency :=
            if searchNraoNrc domain then "NRAO"
            else if postedBy = "ral" || searchEsoDomains domain then "ESO"
            else if searchAcJp domain then "NAOJ"
            else if domain = "asiaa.sinica.edu.tw" then "NAOJ"
            else if domain = "alma.cl" then "JAO"
            else "Not ALMA DOC<" ++ domain ++ ">"
          return dictSet m "ISS_AGENCY" (.str agency)
        else return m
      | _ => Except.error "AttributeError: split"
    else return m
  else return base

def parseLogoV : Option PyVal → Except String AttrMap
  | some (.str s) => parseLogo s
  | some v =>
    if pyTruthy v then .error "TypeError: expected string"
    else .ok [("POSTED_BY", PyVal.str ""), ("ISS_AGENCY", PyVal.str "")]
  | Option.none => .ok [("POSTED_BY", PyVal.str ""), ("ISS_AGENCY", PyVal.str "")]

-- Python `repr` of a parse-tree value, as produced by `str(value[1])` when
-- the token is a nested `ParserNode` (faithful for quote-free strings).
mutual

def pyReprVal : PyVal → String
  | .str s => String.mk ('\'' :: (s.toList ++ ['\'']))
  | .list l => "[" ++ pyReprItems l ++ "]"
  | .time _ => "datetime"
  | .none => "None"

def pyReprItems : List PyVal → String
  | [] => ""
  | [x] => pyReprVal x
  | x :: xs => pyReprVal x ++ ", " ++ pyReprItems xs

end

/-- Python `str(v)`. -/
def pyStrOf : PyVal → String
  | .str s => s
  | v => pyReprVal v

/-- The `RELEASED_BY` accumulation loop of `parseWorkflow` (EDM.py 855-873):
pairs whose key matches `^a\.To` contribute `str(value[1])`; on a short
string the `IndexError` is caught and the whole string is appended; on a
short list the subsequent `str += list` raises `TypeError`; a non-string key
raises `TypeError` inside `re.match`. -/
def releasedLoop : List PyVal → String → Except String String
  | [], acc => .ok acc
  | [_], acc => .ok acc
  | k :: v :: rest, acc =>
    match k with
    | .str ks =>
      if ks.startsWith "a.To" then
        let acc := if acc ≠ "" then acc ++ " " else acc
        match v with
        | .str vs =>
          if vs.length ≥ 2 then
            releasedLoop rest (acc ++ String.singleton (vs.toList.getD 1 ' '))
          else releasedLoop rest (acc ++ vs)
        | .list l =>
          if l.length ≥ 2 then releasedLoop rest (acc ++ pyStrOf (l.getD 1 .none))
          else .error "TypeError: cannot concatenate str and list"
        | _ => .error "TypeError: not subscriptable"
      else releasedLoop rest acc
    | _ => .error "TypeError: re.match expects string"

/-- `parseWorkflow` (EDM.py 833-878). -/
def parseWorkflow (workflowDataV workflowStateV : Option PyVal) :
    Except String AttrMap := do
  let base := [("DOC_STATUS_WF", PyVal.str ""), ("REVIEWED_BY", PyVal.str ""),
               ("APPROVED_BY", PyVal.str ""), ("RELEASED_BY", PyVal.str "")]
  let m := if truthyO workflowStateV then
      dictSet base "DOC_STATUS_WF" (workflowStateV.getD .none) else base
  if truthyO workflowDataV then
    match workflowDataV with
    | some (.str wd) =>
      let items ← splitOnBracketsOrSpace wd
      let lookup := [("r.in Technical Review", "REVIEWED_BY"),
                     ("r.Approved Document", "APPROVED_BY")]
      let delta ← parsePairs items lookup []
      let m := dictMerge m delta
      let rb ← releasedLoop items ""
      if rb ≠ "" then return dictSet m "RELEASED_BY" (.str rb) else return m
    | _ => Except.error "TypeError: expected string"
  else return m

/-- Digit value of an ASCII digit. -/
def digitVal (c : Char) : Nat := c.toNat - '0'.toNat

/-- Modelled from the spec: the external ALMAFE
`ParseTimeStamp.parseTimeStampWithFormatString` (not under src/), used with
the fixed SITESCAPE format `'%Y/%m/%d-%H:%M:%S'`; per the spec the timestamp
decoder "parses any string-typed timestamp field using one fixed format,
leaving already-typed temporal values unchanged". -/
def parseFixedTimestamp (s : String) : Option PyDateTime :=
  match s.toList with
  | [y1, y2, y3, y4, '/', m1, m2, '/', d1, d2, '-',
     h1, h2, ':', n1, n2, ':', s1, s2] =>
    if [y1, y2, y3, y4, m1, m2, d1, d2, h1, h2, n1, n2, s1, s2].all
        Char.isDigit then
      let yr := ((digitVal y1 * 10 + digitVal y2) * 10 + digitVal y3) * 10 +
        digitVal y4
      let mo := digitVal m1 * 10 + digitVal m2
      let dy := digitVal d1 * 10 + digitVal d2
      let hr := digitVal h1 * 10 + digitVal h2
      let mi := digitVal n1 * 10 + digitVal n2
      let se := digitVal s1 * 10 + digitVal s2
      if 1 ≤ mo && mo ≤ 12 && 1 ≤ dy && dy ≤ 31 && hr ≤ 23 && mi ≤ 59 &&
          se ≤ 59 then
        some ⟨yr, mo, dy, hr, mi, se⟩
      else Option.none
    else Option.none
  | _ => Option.none

/-- Modelled from the spec (see `parseFixedTimestamp`): a parse failure keeps
the string unchanged (best-effort, never exercised by the claims). -/
def parseTimeStampWithFormatString (s : String) : PyVal :=
  match parseFixedTimestamp s with
  | some dt => .time dt
  | Option.none => .str s

/-- One argument of `parseTimeStamps` (EDM.py 1001-1015): convert a truthy
string; leave anything else (datetime, `None`, empty) unchanged. -/
def parseTimeStampMaybe (v : Option PyVal) : Option PyVal :=
  match v with
  | some (.str s) =>
    if strTruthy s then some (parseTimeStampWithFormatString s) else v
  | _ => v

/-- Modelled from the spec: `EDM.MLStripper.strip_tags` (file not under
src/); the spec's row builder treats it as removing markup from the abstract
text.  Characters between `<` and the following `>` are dropped. -/
def stripTagsAux : List Char → Bool → List Char
  | [], _ => []
  | '<' :: cs, _ => stripTagsAux cs true
  | '>' :: cs, true => stripTagsAux cs false
  | _ :: cs, true => stripTagsAux cs true
  | c :: cs, false => c :: stripTagsAux cs false

def stripTags (s : String) : String := String.mk (stripTagsAux s.toList false)

example : parseFilename "Spec.DOCX" = [("FILE_TYPE", PyVal.str "MS Word")] := by
  decide

example : parseAlmaDocNum "a|b" =
    [("DOC_TYPE", PyVal.str "b"), ("DOC_VERSION", PyVal.str "a")] := by decide

example : parseUploadFileInfo "file.pdf {}{}{2021/01/01-00:00:00}" =
    .ok [("FILE_NAME_UL", PyVal.str "file.pdf"), ("UPLOAD_BY", PyVal.str ""),
         ("UPLOAD_DATETIME", PyVal.str "2021/01/01-00:00:00")] := by decide

/-! ## The tree (EDMTree.py)

A node dictionary.  `parent` is `Option.none` both for the synthetic root
(stored `None`) and for freshly inserted nodes (key absent); `depth` is
`Option.none` when the `'depth'` key is absent (fresh node). -/

structure Node where
  name : String
  key : Nat
  attrs : AttrMap
  pname : String
  parent : Option Nat := Option.none
  kids : List Nat := []
  depth : Option Int := Option.none
deriving DecidableEq, Repr

/-- The synthetic root node created by `EDMTree.reset` (EDMTree.py 12-25). -/
def rootNode : Node :=
  { name := "000_EDMTree_Root", key := 0, attrs := [],
    pname := "000_EDMTree_XXX", parent := Option.none, kids := [],
    depth := some (-1) }

/-- `EDMTree`: the store is a Python dict keyed by the integer node key;
since keys are assigned consecutively from 0 it is embedded as a list whose
index is the key (iteration order = ascending key = Python dict insertion
order).  `nameIndex` maps a name to the key of the last node inserted under
that name. -/
structure EDMTree where
  lastId : Nat
  store : List Node
  nameIndex : List (String × Nat)
deriving DecidableEq, Repr

/-- `EDMTree()` / `reset()`. -/
def EDMTree.empty : EDMTree :=
  { lastId := 0, store := [rootNode], nameIndex := [] }

/-- Read a node from the store. -/
def EDMTree.node (t : EDMTree) (k : Nat) : Node := t.store.getD k rootNode

/-- Write the node with key `k` in place. -/
def listModify {α : Type} (l : List α) (i : Nat) (f : α → α) : List α :=
  match l, i with
  | [], _ => []
  | x :: xs, 0 => f x :: xs
  | x :: xs, n + 1 => x :: listModify xs n f

def EDMTree.modifyNode (t : EDMTree) (k : Nat) (f : Node → Node) : EDMTree :=
  { t with store := listModify t.store k f }

/-- `nameIndex` update with Python dict semantics (last write wins). -/
def idxSet (d : List (String × Nat)) (k : String) (v : Nat) :
    List (String × Nat) :=
  match d with
  | [] => [(k, v)]
  | (k', v') :: rest =>
    if k' = k then (k, v) :: rest else (k', v') :: idxSet rest k v

def idxGet (d : List (String × Nat)) (k : String) : Option Nat :=
  match d with
  | [] => Option.none
  | (k', v') :: rest => if k' = k then some v' else idxGet rest k

/-- `insert(name, attrs, parent)` (EDMTree.py 27-52); the caller supplies the
already-stringified parent name (`str(None) = "None"` for the default). -/
def EDMTree.insert (t : EDMTree) (name : String) (attrs : AttrMap)
    (parent : String) : EDMTree :=
  let k := t.lastId + 1
  { lastId := k,
    store := t.store ++ [{ name := name, key := k, attrs := attrs,
                           pname := parent }],
    nameIndex := idxSet t.nameIndex name k }

/-- `find(name)` (EDMTree.py 99-109), returning the key of the found node
(the Python `if key:` treats key 0 like a miss). -/
def EDMTree.find (t : EDMTree) (name : String) : Option Nat :=
  match idxGet t.nameIndex name with
  | some k => if k ≠ 0 then some k else Option.none
  | Option.none => Option.none

/-- `adopt(child, newParentName)` (EDMTree.py 54-67).  The removal step in
the source is `oldParent['kids'].remove[key]` — subscripting the bound
method — so whenever the key is actually present in the old parent's kids
list the call raises `TypeError` instead of removing it. -/
def EDMTree.adopt (t : EDMTree) (childKey : Nat) (newParentName : String) :
    Except String EDMTree :=
  if childKey ≠ 0 then
    match t.find (t.node childKey).pname with
    | some pk =>
      if childKey ∈ (t.node pk).kids then
        .error "TypeError: 'builtin_function_or_method' object is not subscriptable"
      else .ok (t.modifyNode childKey fun n => { n with pname := newParentName })
    | Option.none =>
      .ok (t.modifyNode childKey fun n => { n with pname := newParentName })
  else .ok t

/-- `insertionOrder()` (EDMTree.py 111-119): all keys except 0, ascending. -/
def EDMTree.insertionOrderKeys (t : EDMTree) : List Nat :=
  List.range' 1 t.lastId

/-- One step of `depthFirst`'s observable behaviour: a node yielded to the
consumer, or the `doneHook` callback fired with a name. -/
inductive Event where
  | visit (k : Nat)
  | done (name : String)
deriving DecidableEq, Repr

/-- `depthFirst(key, postOrder, doneHook)` (EDMTree.py 121-147) as the list
of yields and hook firings, in generator order.  `fuel` bounds the recursion
depth; every theorem below either proves or checks that the fuel used is
sufficient for the traversal to be complete. -/
def dfsEvents (store : List Node) (postOrder : Bool) :
    Nat → Nat → List Event
  | 0, _ => []
  | fuel + 1, k =>
    let n := store.getD k rootNode
    (if !postOrder && k ≠ 0 then [Event.visit k] else []) ++
    (n.kids.flatMap fun c => dfsEvents store postOrder fuel c) ++
    (if postOrder && k ≠ 0 then [Event.visit k] else []) ++
    [Event.done n.name]

/-- The keys yielded by a traversal. -/
def visitKeys (es : List Event) : List Nat :=
  es.filterMap fun e => match e with | .visit k => some k | .done _ => Option.none

/-- The names passed to `doneHook`, in firing order. -/
def doneNames (es : List Event) : List String :=
  es.filterMap fun e => match e with | .done n => some n | .visit _ => Option.none

def dfsVisits (store : List Node) (postOrder : Bool) (fuel k : Nat) :
    List Nat :=
  visitKeys (dfsEvents store postOrder fuel k)

/-- `breadthFirst(key)` (EDMTree.py 149-169): yield the node (unless the
root), then its children, then recurse into each grandchild subtree. -/
def bfsKeys (store : List Node) : Nat → Nat → List Nat
  | 0, _ => []
  | fuel + 1, k =>
    let kids := (store.getD k rootNode).kids
    (if k ≠ 0 then [k] else []) ++ kids ++
    (kids.flatMap fun c =>
      (store.getD c rootNode).kids.flatMap fun gc => bfsKeys store fuel gc)

/-- The parent-name resolution used by `index()`:
`self.nameIndex.get(node['pname'], 0)`. -/
def EDMTree.resolve (t : EDMTree) (k : Nat) : Nat :=
  (idxGet t.nameIndex (t.node k).pname).getD 0

/-- The depth-assignment step of `index()` (EDMTree.py 93-97): for a yielded
node with nonzero key, `node['depth'] = self.store[node.get('parent', 0)]
.get('depth', 0) + 1` on the live store. -/
def depthStep (st : List Node) (k : Nat) : List Node :=
  if k ≠ 0 then
    let p := ((st.getD k rootNode).parent).getD 0
    listModify st k fun n =>
      { n with depth := some (((st.getD p rootNode).depth).getD 0 + 1) }
  else st

/-- One iteration of the child-reference pass of `index()` (EDMTree.py
83-90): resolve the node's parent name through the name index (falling back
to the synthetic root), record the parent key and append the key to the
parent's kids. -/
def assignStep (nameIdx : List (String × Nat)) (st : List Node) (k : Nat) :
    List Node :=
  let p := (idxGet nameIdx ((st.getD k rootNode).pname)).getD 0
  let st' := listModify st k fun n => { n with parent := some p }
  listModify st' p fun n => { n with kids := n.kids ++ [k] }

/-- The store after the first two passes of `index()`: kids cleared, then
parent keys resolved and kids rebuilt for keys `1..lastId` in order. -/
def EDMTree.assigned (t : EDMTree) : List Node :=
  (List.range' 1 t.lastId).foldl (assignStep t.nameIndex)
    (t.store.map fun n => { n with kids := [] })

/-- `index()` (EDMTree.py 69-97): clear all kids lists; for each key ≥ 1 in
ascending order resolve the parent name (falling back to the synthetic root)
and append the key to that parent's kids; then walk depth-first from the
root assigning depths. -/
def EDMTree.index (t : EDMTree) : EDMTree :=
  let st2 := t.assigned
  let st3 := (dfsVisits st2 false st2.length 0).foldl depthStep st2
  { t with store := st3 }

/-! ## Ownership propagation and the migration row builder (EDM.py 642-768)

`loadDocshares`, `writeDocumentsXLSX` and `writeMigrationXLSX` all drive the
same scope-tracking algorithm: two variables `docOwner`/`treeTop` captured
by a `doneHook` closure that clears `docOwner` exactly when the completing
subtree's name equals `treeTop`. -/

structure OwnState where
  docOwner : Option PyVal := Option.none
  treeTop : Option String := Option.none
deriving DecidableEq, Repr

/-- The per-visited-node owner update (EDM.py 671-675): an owner mark on the
node opens a scope only when no scope is active. -/
def ownVisit (store : List Node) (s : OwnState) (k : Nat) : OwnState :=
  let doc := store.getD k rootNode
  let ow := dictGet doc.attrs "OWNER"
  if truthyO ow && !truthyO s.docOwner then
    { docOwner := ow, treeTop := some doc.name }
  else s

/-- The `doneHook` body (EDM.py 652-656). -/
def ownDone (s : OwnState) (nm : String) : OwnState :=
  if some nm = s.treeTop then { s with docOwner := Option.none } else s

/-- One event of the scope-tracking walk, recording for each yielded node the
owner in effect at its visit (after the node's own mark was considered). -/
def ownStep (store : List Node)
    (sp : OwnState × List (Nat × Option PyVal)) (e : Event) :
    OwnState × List (Nat × Option PyVal) :=
  match e with
  | .visit k =>
    let s := ownVisit store sp.1 k
    (s, sp.2 ++ [(k, s.docOwner)])
  | .done nm => (ownDone sp.1 nm, sp.2)

def ownRun (store : List Node) (s₀ : OwnState) (es : List Event) :
    OwnState × List (Nat × Option PyVal) :=
  es.foldl (ownStep store) (s₀, [])

/-- Effective owner of every node of an indexed tree, walking `depthFirst`
from the synthetic root with the scope-tracking `doneHook`. -/
def effOwners (t : EDMTree) : List (Nat × Option PyVal) :=
  (ownRun t.store {} (dfsEvents t.store false t.store.length 0)).2

/-- Python `d[k]` on an attribute dict: `KeyError` when absent. -/
def reqAttr (a : AttrMap) (k : String) : Except String PyVal :=
  match dictGet a k with
  | some v => .ok v
  | Option.none => .error ("KeyError: " ++ k)

/-- `' '.join(tokens)`: every element must be a string. -/
def pyJoinSpace : List PyVal → Except String String
  | [] => .ok ""
  | .str s :: rest =>
    match rest with
    | [] => .ok s
    | _ =>
      match pyJoinSpace rest with
      | .ok r => .ok (s ++ " " ++ r)
      | .error e => .error e
  | _ :: _ => .error "TypeError: sequence item not str"

/-- Single-character `str.replace` (kernel-reducible). -/
def replaceChar (s : String) (old new : Char) : String :=
  String.mk (s.toList.map fun c => if c = old then new else c)

/-- The row construction of `writeMigrationXLSX` for one document node that
passed the emission guard (EDM.py 683-764), returning the updated attribute
dict (the source merges the decoder outputs into `doc['attrs']` in place)
and the appended row of 27 cells. -/
def rowFor (forumName : String) (forumTitleV : Option PyVal) (doc : Node) :
    Except String (AttrMap × List PyVal) := do
  let attrs := doc.attrs
  let docTitle := (dictGet attrs "TITLE").getD (.str "")
  let docTitle := if pyTruthy docTitle then docTitle else .str ""
  let almaTE := dictGet attrs "ALMA_DOC_NUMBER_TE"
  let almaDocNum := if truthyO almaTE then almaTE
    else dictGet attrs "ALMA_DOC_NUMBER_DE"
  let attrs := dictMerge attrs (← parseAlmaDocNumV almaDocNum)
  let wfData := dictGet attrs "WORKFLOWDATA"
  let wfState := dictGet attrs "WORKFLOWSTATE"
  let attrs := dictMerge attrs (← parseWorkflow wfData wfState)
  let uploads := dictGet attrs "UPLOADFILEINFO"
  let attrs := dictMerge attrs (← parseUploadFileInfoV uploads)
  let fnDE := dictGet attrs "FILE_NAME_DE"
  let fileName := if truthyO fnDE then fnDE else dictGet attrs "FILE_NAME_UL"
  let attrs := dictSet attrs "FILE_NAME" (fileName.getD .none)
  let attrs := dictMerge attrs (← parseFilenameV fileName)
  let logo := dictGet attrs "LOGO"
  let attrs := dictMerge attrs (← parseLogoV logo)
  let createdOn := parseTimeStampMaybe (dictGet attrs "CREATEDON")
  let modifiedOn := parseTimeStampMaybe (dictGet attrs "MODIFIEDON")
  let uploadOn := parseTimeStampMaybe (dictGet attrs "UPLOAD_DATETIME")
  let attrs := dictSet attrs "CREATEDON" (createdOn.getD .none)
  let attrs := dictSet attrs "MODIFIEDON" (modifiedOn.getD .none)
  let attrs := dictSet attrs "UPLOAD_DATETIME" (uploadOn.getD .none)
  let abstract0 := (dictGet attrs "ABSTRACT").getD (.str "")
  let abstract ←
    if pyTruthy abstract0 then
      match abstract0 with
      | .str s =>
        pure (PyVal.str
          (pyStrip (replaceChar (replaceChar (stripTags s) '\n' ' ') '\r' ' ')))
      | _ => Except.error "TypeError: strip_tags expects str"
    else pure abstract0
  let authors ← reqAttr attrs "AUTHORS"
  let author0 ←
    if pyTruthy authors then
      match authors with
      | .str s =>
        match pySplitWs s with
        | w :: _ => pure w
        | [] => Except.error "IndexError: list index out of range"
      | _ => Except.error "AttributeError: split"
    else pure ""
  let isWorkflow := truthyO (dictGet attrs "ISWORKFLOW")
  let docTitleStr ← match docTitle with
    | .str s => pure s
    | _ => Except.error "AttributeError: strip"
  let kwToks ← splitOnBracketsOrSpaceV ((dictGet attrs "KEYWORDS").getD (.str ""))
  let keywords ← pyJoinSpace kwToks
  let editors ← reqAttr attrs "EDITORS"
  let docType ← reqAttr attrs "DOC_TYPE"
  let docVersion ← reqAttr attrs "DOC_VERSION"
  let fileNameCell ← reqAttr attrs "FILE_NAME"
  let createdCell ← reqAttr attrs "CREATEDON"
  let modifiedCell ← reqAttr attrs "MODIFIEDON"
  let statusCell ←
    if isWorkflow then pure ((dictGet attrs "DOC_STATUS_WF").getD (.str ""))
    else reqAttr attrs "DOC_STATUS_TE"
  let issAgency ← reqAttr attrs "ISS_AGENCY"
  let fileType ← reqAttr attrs "FILE_TYPE"
  let postedBy ← reqAttr attrs "POSTED_BY"
  let uploadCell ← reqAttr attrs "UPLOAD_DATETIME"
  let row : List PyVal := [
    .str forumName,
    forumTitleV.getD (.str ""),
    .str doc.name,
    .str (replaceChar (pyStrip docTitleStr) '\n' ' '),
    abstract,
    authors,
    .str keywords,
    editors,
    (if truthyO almaDocNum then almaDocNum.getD .none else .str ""),
    fileNameCell,
    docType,
    .str author0,
    docVersion,
    createdCell,
    modifiedCell,
    (dictGet attrs "MODIFIEDBY").getD (.str ""),
    (if isWorkflow then (dictGet attrs "REVIEWED_BY").getD (.str "")
     else authors),
    (if isWorkflow then (dictGet attrs "APPROVED_BY").getD (.str "")
     else .str ""),
    (if isWorkflow then (dictGet attrs "RELEASED_BY").getD (.str "")
     else .str ""),
    .str (if isWorkflow then "1" else "0"),
    .str "",
    statusCell,
    issAgency,
    abstract,
    fileType,
    postedBy,
    uploadCell]
  return (attrs, row)

/-- Running state of the per-docshare document loop of `writeMigrationXLSX`
(`stopped` models the inner `break`: once set, the generator is abandoned
and no further yields or hook firings are consumed). -/
structure MigAcc where
  dstore : List Node
  own : OwnState
  rows : List (List PyVal)
  stopped : Bool

/-- The loop body of `writeMigrationXLSX` (EDM.py 670-764) for one traversal
event: hook firings update the scope; a visited document first applies the
owner update, then the `'STOP!'` debug break, then the emission guard
`docOwner and (UPLOADFILEINFO or FILE_NAME_DE)`. -/
def migStep (forumName : String) (forumTitleV : Option PyVal) (acc : MigAcc)
    (e : Event) : Except String MigAcc :=
  if acc.stopped then .ok acc
  else
    match e with
    | .done nm => .ok { acc with own := ownDone acc.own nm }
    | .visit k =>
      let doc := acc.dstore.getD k rootNode
      let s := ownVisit acc.dstore acc.own k
      if s.docOwner = some (.str "STOP!") then
        .ok { acc with own := s, stopped := true }
      else if truthyO s.docOwner &&
          (truthyO (dictGet doc.attrs "UPLOADFILEINFO") ||
           truthyO (dictGet doc.attrs "FILE_NAME_DE")) then
        match rowFor forumName forumTitleV doc with
        | .ok ar =>
          let dstore' := listModify acc.dstore k
            (fun n => { n with attrs := ar.1 })
          .ok { acc with own := s, dstore := dstore',
                         rows := acc.rows ++ [ar.2] }
        | .error e => .error e
      else .ok { acc with own := s }

/-- The in-memory state `writeMigrationXLSX` runs on: the forums tree plus
the `'docshare'` attribute of each forum (an `EDMTree`), kept in a side map
keyed by the forum's key so that the value type stays first-order. -/
structure EDMState where
  forums : EDMTree
  docshares : List (Nat × EDMTree)

structure MigOuter where
  own : OwnState
  rows : List (List PyVal)
  broke : Bool

/-- `writeMigrationXLSX` (EDM.py 642-768) as the list of emitted rows:
iterate the forums that carry an `OWNER` mark and a loaded docshare in
insertion order (the scope state is shared across forums), walking each
docshare depth-first with the scope-tracking hook and appending one row per
document that passes the emission guard. -/
def writeMigrationRows (st : EDMState) : Except String (List (List PyVal)) := do
  let sel := st.forums.insertionOrderKeys.filter fun k =>
    truthyO (dictGet (st.forums.node k).attrs "OWNER") &&
    (st.docshares.lookup k).isSome
  let res ← sel.foldlM (fun (acc : MigOuter) k => do
    if acc.broke then pure acc
    else if acc.own.docOwner = some (.str "STOP!") then
      pure { acc with broke := true }
    else
      let forum := st.forums.node k
      match st.docshares.lookup k with
      | some ds => do
        let events := dfsEvents ds.store false ds.store.length 0
        let macc ← events.foldlM
          (migStep forum.name (dictGet forum.attrs "TITLE"))
          { dstore := ds.store, own := acc.own, rows := acc.rows,
            stopped := false }
        pure { acc with own := macc.own, rows := macc.rows }
      | Option.none => pure acc)
    { own := {}, rows := [], broke := false }
  return res.rows

/-! ## Well-formedness

Every tree reachable through the `EDMTree` API (`reset`, `insert`, `adopt`,
`index`) satisfies this decidable invariant: the store holds exactly the
keys `0..lastId` in order, the name index maps only to real keys, and the
synthetic root keeps its `reset` identity (only its `kids`, rebuilt by
`index`, may change). -/

def WFb (t : EDMTree) : Bool :=
  t.store.length = t.lastId + 1 &&
  (List.range t.store.length).all (fun i => (t.node i).key = i) &&
  t.nameIndex.all (fun nk => 1 ≤ nk.2 && nk.2 ≤ t.lastId) &&
  (t.node 0).name = "000_EDMTree_Root" &&
  (t.node 0).depth = some (-1) &&
  (t.node 0).pname = "000_EDMTree_XXX" &&
  (t.node 0).parent = Option.none

/-! ## Concrete trees and scenarios used by the claims -/

/-- Ownership-propagation example tree (spec §8): root with owned child `A`
(owner `X`) containing owned grandchild `B` (owner `Y`) containing leaf `C`,
and a later sibling `D` (owner `Z`) with child `E`. -/
def ownerTreeBase : EDMTree :=
  ((((EDMTree.empty.insert "A" [("OWNER", .str "X")] "None").insert
    "B" [("OWNER", .str "Y")] "A").insert "C" [] "B").insert
    "D" [("OWNER", .str "Z")] "None").insert "E" [] "D"

def ownerTree : EDMTree := ownerTreeBase.index

/-- Document attributes as `__loadDocshare` (EDM.py 399-450) produces them
for a row whose optional columns are all NULL: the raw columns plus the
empty-string defaults contributed by `parseTE_Values` and `parseDE_Values`. -/
def d1Attrs : AttrMap :=
  [("DOCCONTENT", .none), ("DOCUMENTTYPE", .none), ("TOPPARENTID", .none),
   ("PARENTFOLDER", .none), ("PARENTID", .none), ("DOCNUMBER", .none),
   ("CREATEDBY", .none), ("CREATEDON", .none), ("MODIFIEDBY", .none),
   ("MODIFIEDON", .none), ("KEYWORDS", .none), ("TITLE", .str ""),
   ("UPLOADFILEINFO", .none), ("ISWORKFLOW", .none), ("WORKFLOWSTATE", .none),
   ("LOGO", .none), ("WORKFLOWDATA", .none), ("ABSTRACT", .str ""),
   ("AUTHORS", .str ""), ("EDITORS", .str ""), ("ALMA_DOC_NUMBER_TE", .str ""),
   ("DOC_STATUS_TE", .str ""), ("ALMA_DOC_NUMBER_DE", .str ""),
   ("FILE_NAME_DE", .str "")]

/-- Attributes of document `D2`: title `Draft`, upload-info
`file.pdf {}{}{2021/01/01-00:00:00}`, parent `D1`. -/
def d2Attrs : AttrMap :=
  [("DOCCONTENT", .none), ("DOCUMENTTYPE", .none), ("TOPPARENTID", .none),
   ("PARENTFOLDER", .none), ("PARENTID", .str "D1"), ("DOCNUMBER", .none),
   ("CREATEDBY", .none), ("CREATEDON", .none), ("MODIFIEDBY", .none),
   ("MODIFIEDON", .none), ("KEYWORDS", .none), ("TITLE", .str "Draft"),
   ("UPLOADFILEINFO", .str "file.pdf {}{}{2021/01/01-00:00:00}"),
   ("ISWORKFLOW", .none), ("WORKFLOWSTATE", .none),
   ("LOGO", .none), ("WORKFLOWDATA", .none), ("ABSTRACT", .str ""),
   ("AUTHORS", .str ""), ("EDITORS", .str ""), ("ALMA_DOC_NUMBER_TE", .str ""),
   ("DOC_STATUS_TE", .str ""), ("ALMA_DOC_NUMBER_DE", .str ""),
   ("FILE_NAME_DE", .str "")]

/-- The end-to-end scenario exactly as the claim states it: forum `F1` is
marked owner `alice`; inside its docshare, document `D1` (owner unset, no
upload content) has child `D2`.  No document node carries an owner mark. -/
def scenClaim : EDMState :=
  { forums := EDMTree.empty.insert "F1"
      [("TITLE", .str "Forum One"), ("OWNER", .str "alice")] "None",
    docshares := [(1, ((EDMTree.empty.insert "D1" d1Attrs "None").insert
      "D2" d2Attrs "D1").index)] }

/-- The amended scenario: in addition to the forum mark (which selects the
forum for output), the docshare's top document `D1` carries the owner mark
`alice` — as `readDocumentsXLSX` (EDM.py 595-606) records marks in practice. -/
def scenAmended : EDMState :=
  { forums := EDMTree.empty.insert "F1"
      [("TITLE", .str "Forum One"), ("OWNER", .str "alice")] "None",
    docshares := [(1, ((EDMTree.empty.insert "D1"
      (("OWNER", PyVal.str "alice") :: d1Attrs) "None").insert
      "D2" d2Attrs "D1").index)] }

/-- The single row the amended scenario emits (for `D2`). -/
def d2Row : List PyVal :=
  [.str "F1", .str "Forum One", .str "D2", .str "Draft", .str "", .str "",
   .str "", .str "", .str "", .str "file.pdf", .str "", .str "", .str "",
   .none, .none, .none, .str "", .str "", .str "", .str "0", .str "",
   .str "", .str "", .str "", .str "Adobe PDF", .str "",
   .time ⟨2021, 1, 1, 0, 0, 0⟩]

/-- A tree with a parent-name cycle of length one: node `a` names itself as
its parent, so indexing attaches it outside the root's component and the
depth pass never reaches it. -/
def selfParentTree : EDMTree := (EDMTree.empty.insert "a" [] "a").index

/-- A tree with a parent-name cycle of length two. -/
def cycleTree : EDMTree :=
  ((EDMTree.empty.insert "a" [] "b").insert "b" [] "a").index

/-- The `adopt` failing input: `b` is a child of `a` in an indexed tree, so
`b`'s key is present in `a`'s kids list. -/
def adoptTreeBase : EDMTree :=
  (EDMTree.empty.insert "a" [] "None").insert "b" [] "a"

def adoptTree : EDMTree := adoptTreeBase.index

/-- Level-order counterexample tree: two top-level branches where the first
(`a → b → c`) is deeper than the second (`x → y`). -/
def bfsTree : EDMTree :=
  (((((EDMTree.empty.insert "a" [] "None").insert "x" [] "None").insert
    "b" [] "a").insert "c" [] "b").insert "y" [] "x").index

/-! ## Basic lemmas about the store helpers -/

theorem listModify_length {α : Type} (l : List α) (i : Nat) (f : α → α) :
    (listModify l i f).length = l.length := by
  induction l generalizing i with
  | nil => rfl
  | cons x xs ih =>
    cases i with
    | zero => rfl
    | succ n => simp [listModify, ih]

theorem getD_listModify_ne {α : Type} (l : List α) (i j : Nat) (f : α → α)
    (d : α) (h : j ≠ i) : (listModify l i f).getD j d = l.getD j d := by
  induction l generalizing i j with
  | nil => rfl
  | cons x xs ih =>
    cases i with
    | zero =>
      cases j with
      | zero => exact absurd rfl h
      | succ m => simp [listModify]
    | succ n =>
      cases j with
      | zero => simp [listModify]
      | succ m =>
        simp only [listModify, List.getD_cons_succ]
        exact ih n m (by omega)

theorem getD_listModify_eq {α : Type} (l : List α) (i : Nat) (f : α → α)
    (d : α) (h : i < l.length) :
    (listModify l i f).getD i d = f (l.getD i d) := by
  induction l generalizing i with
  | nil => simp at h
  | cons x xs ih =>
    cases i with
    | zero => rfl
    | succ n =>
      simp only [listModify, List.getD_cons_succ]
      exact ih n (by simpa using h)

theorem idxGet_mem (d : List (String × Nat)) (k : String) (v : Nat)
    (h : idxGet d k = some v) : (k, v) ∈ d := by
  induction d with
  | nil => simp [idxGet] at h
  | cons kv rest ih =>
    by_cases hk : kv.1 = k
    · have : idxGet (kv :: rest) k = some kv.2 := by
        cases kv; simp_all [idxGet]
      rw [this] at h
      cases kv
      simp at hk
      simp_all
    · have : idxGet (kv :: rest) k = idxGet rest k := by
        cases kv; simp_all [idxGet]
      rw [this] at h
      exact List.mem_cons_of_mem _ (ih h)

/-! ## Generic depth-first traversal theory

The kids structure produced by `index()` assigns every key `1..N-1` to the
kids list of exactly one resolved parent.  `toRoot` measures the number of
resolution steps from a key up to the synthetic root; its fuel-indexed
definition is total, and the lemmas below show that whenever any fuel
suffices, `N` does, and that traversal from the root with fuel `N` is
complete. -/

/-- Steps from `k` to the root along `res`, with at most `fuel` steps. -/
def toRoot (res : Nat → Nat) : Nat → Nat → Option Nat
  | _, 0 => some 0
  | 0, _ + 1 => Option.none
  | f + 1, k + 1 => (toRoot res f (res (k + 1))).map (· + 1)

/-- The kids lists are exactly the fibers of `res` over `1..N-1`, in
ascending key order (the shape `index()` produces). -/
def KidsOk (s : List Node) (res : Nat → Nat) : Prop :=
  ∀ j, j < s.length →
    (s.getD j rootNode).kids =
      (List.range' 1 (s.length - 1)).filter (fun k => res k == j)

/-- Resolution stays inside the store. -/
def ResOk (s : List Node) (res : Nat → Nat) : Prop :=
  ∀ k, 0 < k → k < s.length → res k < s.length

theorem toRoot_zero_fuel (res : Nat → Nat) (f : Nat) : toRoot res f 0 = some 0 := by
  cases f <;> rfl

theorem toRoot_eq_zero (res : Nat → Nat) (f k : Nat)
    (h : toRoot res f k = some 0) : k = 0 := by
  cases k with
  | zero => rfl
  | succ n =>
    cases f with
    | zero => simp [toRoot] at h
    | succ m => simp [toRoot] at h

theorem toRoot_succ_fuel (res : Nat → Nat) (f k m : Nat)
    (h : toRoot res f k = some m) : toRoot res (f + 1) k = some m := by
  induction f generalizing k m with
  | zero =>
    cases k with
    | zero => simpa [toRoot] using h
    | succ n => simp [toRoot] at h
  | succ f ih =>
    cases k with
    | zero => simpa [toRoot] using h
    | succ n =>
      simp only [toRoot, Option.map_eq_some'] at h
      obtain ⟨m', hm', rfl⟩ := h
      have := ih _ _ hm'
      simp only [toRoot, Option.map_eq_some']
      exact ⟨m', this, rfl⟩

theorem toRoot_mono (res : Nat → Nat) (f f' k m : Nat) (hle : f ≤ f')
    (h : toRoot res f k = some m) : toRoot res f' k = some m := by
  induction f' with
  | zero => exact (Nat.le_zero.mp hle) ▸ h
  | succ g ih =>
    rcases Nat.lt_or_ge f (g + 1) with hf | hf
    · exact toRoot_succ_fuel res g k m (ih (by omega))
    · exact (Nat.le_antisymm hle hf) ▸ h

theorem toRoot_functional (res : Nat → Nat) (f f' k m m' : Nat)
    (h : toRoot res f k = some m) (h' : toRoot res f' k = some m') : m = m' := by
  have h1 := toRoot_mono res f (f + f') k m (by omega) h
  have h2 := toRoot_mono res f' (f + f') k m' (by omega) h'
  rw [h1] at h2
  exact (Option.some_inj.mp h2)

theorem toRoot_unstep (res : Nat → Nat) (f k m : Nat) (hk : k ≠ 0)
    (h : toRoot res f k = some (m + 1)) :
    ∃ f', f = f' + 1 ∧ toRoot res f' (res k) = some m := by
  cases k with
  | zero => exact absurd rfl hk
  | succ n =>
    cases f with
    | zero => simp [toRoot] at h
    | succ f' =>
      refine ⟨f', rfl, ?_⟩
      simp only [toRoot, Option.map_eq_some'] at h
      obtain ⟨m', hm', hmm⟩ := h
      have : m' = m := by omega
      exact this ▸ hm'

theorem toRoot_iterate (res : Nat → Nat) (f k m i : Nat)
    (h : toRoot res f k = some m) (hi : i ≤ m) :
    toRoot res f (res^[i] k) = some (m - i) := by
  induction i with
  | zero => simpa using h
  | succ n ih =>
    have hn : toRoot res f (res^[n] k) = some (m - n) := ih (by omega)
    have hnz : res^[n] k ≠ 0 := by
      intro h0
      rw [h0, toRoot_zero_fuel] at hn
      have : m - n = 0 := by exact (Option.some_inj.mp hn).symm
      omega
    have hmn : m - n = (m - (n + 1)) + 1 := by omega
    rw [hmn] at hn
    obtain ⟨f', _, hf'⟩ := toRoot_unstep res f _ _ hnz hn
    have := toRoot_mono res f' f _ _ (by omega) hf'
    rw [Function.iterate_succ_apply']
    exact this

theorem toRoot_min_fuel (res : Nat → Nat) (f k m : Nat)
    (h : toRoot res f k = some m) : toRoot res m k = some m := by
  induction m generalizing k f with
  | zero =>
    have := toRoot_eq_zero res f k h
    subst this
    exact toRoot_zero_fuel res 0
  | succ n ih =>
    have hk : k ≠ 0 := by
      intro h0
      rw [h0, toRoot_zero_fuel] at h
      simp at h
    obtain ⟨f', _, hf'⟩ := toRoot_unstep res f k n hk h
    have hn := ih _ _ hf'
    cases k with
    | zero => exact absurd rfl hk
    | succ j =>
      simp only [toRoot, Option.map_eq_some']
      exact ⟨n, hn, rfl⟩

/-- Pigeonhole: a reachable key within the store has fewer than `N`
resolution steps to the root, because all the intermediate keys are distinct
members of `0..N-1`. -/
theorem toRoot_lt_length (s : List Node) (res : Nat → Nat) (hr : ResOk s res)
    (f k m : Nat) (hk : k < s.length) (h : toRoot res f k = some m) :
    m < s.length := by
  set N := s.length with hN
  have hlt : ∀ i : Nat, i ≤ m → res^[i] k < N := by
    intro i
    induction i with
    | zero => intro _; simpa using hk
    | succ n ih =>
      intro hn
      have hprev : res^[n] k < N := ih (by omega)
      have hnz : res^[n] k ≠ 0 := by
        intro h0
        have := toRoot_iterate res f k m n h (by omega)
        rw [h0, toRoot_zero_fuel] at this
        have : m - n = 0 := (Option.some_inj.mp this).symm
        omega
      rw [Function.iterate_succ_apply']
      exact hr _ (Nat.pos_of_ne_zero hnz) hprev
  have hinj : Function.Injective
      (fun i : Fin (m + 1) => (⟨res^[i.1] k, hlt i.1 (by omega)⟩ : Fin N)) := by
    intro i j hij
    simp only [Fin.mk.injEq] at hij
    have hi := toRoot_iterate res f k m i.1 h (by omega)
    have hj := toRoot_iterate res f k m j.1 h (by omega)
    rw [hij] at hi
    have := toRoot_functional res f f _ _ _ hi hj
    have hiv : i.1 = j.1 := by omega
    exact Fin.ext hiv
  have := Fintype.card_le_of_injective _ hinj
  simpa using this

/-- Any sufficient fuel can be replaced by the canonical fuel `N`. -/
theorem toRoot_canonical (s : List Node) (res : Nat → Nat) (hr : ResOk s res)
    (f k m : Nat) (hk : k < s.length) (h : toRoot res f k = some m) :
    toRoot res s.length k = some m := by
  have hm := toRoot_lt_length s res hr f k m hk h
  exact toRoot_mono res m s.length k m (by omega) (toRoot_min_fuel res f k m h)

theorem kids_mem (s : List Node) (res : Nat → Nat) (hk : KidsOk s res)
    (j c : Nat) (hj : j < s.length) :
    c ∈ (s.getD j rootNode).kids ↔ (1 ≤ c ∧ c < s.length ∧ res c = j) := by
  rw [hk j hj]
  simp only [List.mem_filter, List.mem_range'_1, beq_iff_eq]
  constructor
  · rintro ⟨⟨h1, h2⟩, h3⟩
    exact ⟨h1, by omega, h3⟩
  · rintro ⟨h1, h2, h3⟩
    exact ⟨⟨h1, by omega⟩, h3⟩

theorem kids_nodup (s : List Node) (res : Nat → Nat) (hk : KidsOk s res)
    (j : Nat) (hj : j < s.length) : (s.getD j rootNode).kids.Nodup := by
  rw [hk j hj]
  exact (List.nodup_range' 1 (s.length - 1)).filter _

/-- A child of a reachable node is reachable with one more step. -/
theorem child_rank (s : List Node) (res : Nat → Nat) (hkc : KidsOk s res)
    (hr : ResOk s res) (j c m : Nat) (hj : j < s.length)
    (hm : toRoot res s.length j = some m)
    (hc : c ∈ (s.getD j rootNode).kids) :
    1 ≤ c ∧ c < s.length ∧ res c = j ∧
      toRoot res s.length c = some (m + 1) := by
  obtain ⟨h1, h2, h3⟩ := (kids_mem s res hkc j c hj).mp hc
  refine ⟨h1, h2, h3, ?_⟩
  have hc' : toRoot res (s.length + 1) c = some (m + 1) := by
    cases c with
    | zero => omega
    | succ n =>
      simp only [toRoot, Option.map_eq_some']
      exact ⟨m, h3 ▸ hm, rfl⟩
  exact toRoot_canonical s res hr _ _ _ h2 hc'

/-- Unfolding of a pre-order traversal step. -/
theorem dfsEvents_succ (s : List Node) (f k : Nat) :
    dfsEvents s false (f + 1) k =
      (if k ≠ 0 then [Event.visit k] else []) ++
      ((s.getD k rootNode).kids.flatMap fun c => dfsEvents s false f c) ++
      [Event.done (s.getD k rootNode).name] := by
  simp [dfsEvents]

theorem visitKeys_append (a b : List Event) :
    visitKeys (a ++ b) = visitKeys a ++ visitKeys b := by
  simp [visitKeys]

theorem doneNames_append (a b : List Event) :
    doneNames (a ++ b) = doneNames a ++ doneNames b := by
  simp [doneNames]

theorem visitKeys_flatMap {α : Type} (l : List α) (f : α → List Event) :
    visitKeys (l.flatMap f) = l.flatMap fun x => visitKeys (f x) := by
  induction l with
  | nil => rfl
  | cons x xs ih => simp [visitKeys, List.filterMap_append] at ih ⊢; rw [ih]

theorem doneNames_flatMap {α : Type} (l : List α) (f : α → List Event) :
    doneNames (l.flatMap f) = l.flatMap fun x => doneNames (f x) := by
  induction l with
  | nil => rfl
  | cons x xs ih => simp [doneNames, List.filterMap_append] at ih ⊢; rw [ih]

theorem dfsVisits_succ (s : List Node) (f k : Nat) :
    dfsVisits s false (f + 1) k =
      (if k ≠ 0 then [k] else []) ++
      ((s.getD k rootNode).kids.flatMap fun c => dfsVisits s false f c) := by
  unfold dfsVisits
  rw [dfsEvents_succ, visitKeys_append, visitKeys_append, visitKeys_flatMap]
  by_cases hk : k = 0 <;> simp [hk, visitKeys]

theorem flatMap_congr {α β : Type} (l : List α) (f g : α → List β)
    (h : ∀ x ∈ l, f x = g x) : l.flatMap f = l.flatMap g := by
  induction l with
  | nil => rfl
  | cons x xs ih =>
    simp only [List.flatMap_cons]
    rw [h x (List.mem_cons_self x xs), ih fun y hy => h y (List.mem_cons_of_mem x hy)]

/-- Fuel stability: any fuel at least `N - rank k` produces the same
traversal as one more unit of fuel. -/
theorem dfs_fuel_succ (s : List Node) (res : Nat → Nat) (hkc : KidsOk s res)
    (hr : ResOk s res) :
    ∀ fuel k m, k < s.length → toRoot res s.length k = some m →
      s.length ≤ fuel + m →
      dfsEvents s false fuel k = dfsEvents s false (fuel + 1) k := by
  intro fuel
  induction fuel with
  | zero =>
    intro k m hk hm hle
    have := toRoot_lt_length s res hr _ _ _ hk hm
    omega
  | succ f ih =>
    intro k m hk hm hle
    rw [dfsEvents_succ, dfsEvents_succ]
    congr 2
    apply flatMap_congr
    intro c hc
    obtain ⟨_, hc2, _, hc4⟩ := child_rank s res hkc hr k c m hk hm hc
    exact ih c (m + 1) hc2 hc4 (by omega)

theorem dfs_fuel_add (s : List Node) (res : Nat → Nat) (hkc : KidsOk s res)
    (hr : ResOk s res) (fuel k m d : Nat) (hk : k < s.length)
    (hm : toRoot res s.length k = some m) (hle : s.length ≤ fuel + m) :
    dfsEvents s false fuel k = dfsEvents s false (fuel + d) k := by
  induction d with
  | zero => rfl
  | succ e ih =>
    rw [ih, ← Nat.add_assoc]
    exact dfs_fuel_succ s res hkc hr (fuel + e) k m hk hm (by omega)

/-- Both sufficient fuels give the same traversal. -/
theorem dfs_fuel_stable (s : List Node) (res : Nat → Nat) (hkc : KidsOk s res)
    (hr : ResOk s res) (f1 f2 k m : Nat) (hk : k < s.length)
    (hm : toRoot res s.length k = some m) (h1 : s.length ≤ f1 + m)
    (h2 : s.length ≤ f2 + m) :
    dfsEvents s false f1 k = dfsEvents s false f2 k := by
  rcases Nat.le_total f1 f2 with h | h
  · have := dfs_fuel_add s res hkc hr f1 k m (f2 - f1) hk hm h1
    rw [this]
    congr 1
    omega
  · have heq : f2 + (f1 - f2) = f1 := by omega
    have := dfs_fuel_add s res hkc hr f2 k m (f1 - f2) hk hm h2
    rw [heq] at this
    exact this.symm

/-- Every visited key is a positive in-range key whose resolution chain
passes through the traversal start, with rank offset by the chain length. -/
theorem dfs_visits_rank (s : List Node) (res : Nat → Nat) (hkc : KidsOk s res)
    (hr : ResOk s res) :
    ∀ fuel k m v, k < s.length → toRoot res s.length k = some m →
      s.length ≤ fuel + m → v ∈ dfsVisits s false fuel k →
      0 < v ∧ v < s.length ∧
        ∃ i, res^[i] v = k ∧ toRoot res s.length v = some (m + i) := by
  intro fuel
  induction fuel with
  | zero =>
    intro k m v hk hm hle _
    have := toRoot_lt_length s res hr _ _ _ hk hm
    omega
  | succ f ih =>
    intro k m v hk hm hle hv
    rw [dfsVisits_succ] at hv
    rcases List.mem_append.mp hv with hv | hv
    · by_cases hk0 : k = 0
      · simp [hk0] at hv
      · simp [hk0] at hv
        subst hv
        exact ⟨Nat.pos_of_ne_zero hk0, hk, 0, rfl, by simpa using hm⟩
    · obtain ⟨c, hc, hvc⟩ := List.mem_flatMap.mp hv
      obtain ⟨_, hc2, hc3, hc4⟩ := child_rank s res hkc hr k c m hk hm hc
      obtain ⟨hv1, hv2, i, hi1, hi2⟩ := ih c (m + 1) v hc2 hc4 (by omega) hvc
      refine ⟨hv1, hv2, i + 1, ?_, ?_⟩
      · rw [Function.iterate_succ_apply', hi1, hc3]
      · rw [hi2]; congr 1; omega

/-- The traversal of a subtree rooted at a nonzero key starts by yielding
that key. -/
theorem dfs_visits_head (s : List Node) (fuel k : Nat) (hk : k ≠ 0)
    (hf : 1 ≤ fuel) :
    ∃ rest, dfsVisits s false fuel k = k :: rest := by
  cases fuel with
  | zero => omega
  | succ f =>
    refine ⟨(s.getD k rootNode).kids.flatMap fun c => dfsVisits s false f c, ?_⟩
    rw [dfsVisits_succ]
    simp [hk]

/-- Distinct keys are never visited twice: the subtrees of distinct siblings
are disjoint because each visited key has a unique rank offset. -/
theorem dfs_visits_nodup (s : List Node) (res : Nat → Nat) (hkc : KidsOk s res)
    (hr : ResOk s res) :
    ∀ fuel k m, k < s.length → toRoot res s.length k = some m →
      s.length ≤ fuel + m → (dfsVisits s false fuel k).Nodup := by
  intro fuel
  induction fuel with
  | zero => intro k m _ _ _; simp [dfsVisits, dfsEvents, visitKeys]
  | succ f ih =>
    intro k m hk hm hle
    rw [dfsVisits_succ]
    have hbind : ((s.getD k rootNode).kids.flatMap
        fun c => dfsVisits s false f c).Nodup := by
      refine List.nodup_flatMap.2 ⟨?_, ?_⟩
      · intro c hc
        obtain ⟨_, hc2, _, hc4⟩ := child_rank s res hkc hr k c m hk hm hc
        exact ih c (m + 1) hc2 hc4 (by omega)
      · have hnd := kids_nodup s res hkc k hk
        refine List.Pairwise.imp_of_mem ?_ hnd
        intro c1 c2 hc1 hc2 hne
        intro v hv1 hv2
        obtain ⟨_, _, hr1, hk1⟩ := child_rank s res hkc hr k c1 m hk hm hc1
        obtain ⟨_, _, hr2, hk2⟩ := child_rank s res hkc hr k c2 m hk hm hc2
        obtain ⟨_, _, i1, hi1, hv1'⟩ :=
          dfs_visits_rank s res hkc hr f c1 (m + 1) v
            (by obtain ⟨_, h, _⟩ := child_rank s res hkc hr k c1 m hk hm hc1
                exact h) hk1 (by omega) hv1
        obtain ⟨_, _, i2, hi2, hv2'⟩ :=
          dfs_visits_rank s res hkc hr f c2 (m + 1) v
            (by obtain ⟨_, h, _⟩ := child_rank s res hkc hr k c2 m hk hm hc2
                exact h) hk2 (by omega) hv2
        have : m + 1 + i1 = m + 1 + i2 :=
          toRoot_functional res _ _ _ _ _ hv1' hv2'
        have hii : i1 = i2 := by omega
        exact hne (by rw [← hi1, ← hi2, hii])
    by_cases hk0 : k = 0
    · simpa [hk0] using hbind
    · simp only [hk0, ne_eq, not_false_eq_true, if_pos, List.singleton_append]
      refine List.Nodup.cons ?_ hbind
      intro hmem
      obtain ⟨c, hc, hvc⟩ := List.mem_flatMap.mp hmem
      obtain ⟨_, hc2, _, hc4⟩ := child_rank s res hkc hr k c m hk hm hc
      obtain ⟨_, _, i, _, hki⟩ :=
        dfs_visits_rank s res hkc hr f c (m + 1) k hc2 hc4 (by omega) hvc
      have := toRoot_functional res _ _ _ _ _ hm hki
      omega

/-- Splitting a `flatMap` around a distinguished element. -/
theorem flatMap_split {α β : Type} (l : List α) (f : α → List β) (a : List β)
    (v : β) (b : List β) (h : l.flatMap f = a ++ v :: b) :
    ∃ l₁ c l₂ fa fb, l = l₁ ++ c :: l₂ ∧ f c = fa ++ v :: fb ∧
      a = l₁.flatMap f ++ fa ∧ b = fb ++ l₂.flatMap f := by
  induction l generalizing a with
  | nil =>
    exfalso
    have : ([] : List β) = a ++ v :: b := h
    cases a <;> simp at this
  | cons x xs ih =>
    rw [List.flatMap_cons] at h
    rcases List.append_eq_append_iff.mp h with ⟨a', ha', hr⟩ | ⟨c', hc', hd⟩
    · obtain ⟨l₁, c, l₂, fa, fb, hl, hfc, ha, hb⟩ := ih a' hr
      exact ⟨x :: l₁, c, l₂, fa, fb, by simp [hl], hfc,
        by rw [ha', ha, List.flatMap_cons, List.append_assoc], hb⟩
    · cases c' with
      | nil =>
        simp only [List.append_nil] at hc'
        have hxs : xs.flatMap f = v :: b := by simpa using hd.symm
        obtain ⟨l₁, c, l₂, fa, fb, hl, hfc, ha, hb⟩ :=
          ih [] (by simpa using hxs)
        have hfa : l₁.flatMap f = [] ∧ fa = [] := by
          constructor
          · exact (List.append_eq_nil.mp ha.symm).1
          · exact (List.append_eq_nil.mp ha.symm).2
        refine ⟨x :: l₁, c, l₂, fa, fb, by simp [hl], hfc, ?_, hb⟩
        rw [List.flatMap_cons, hfa.1, hfa.2]
        simp [hc']
      | cons y ys =>
        simp only [List.cons_append] at hd
        have hy : v = y ∧ b = ys ++ xs.flatMap f := by
          injection hd with h1 h2
          exact ⟨h1, h2⟩
        refine ⟨[], x, xs, a, ys, rfl, ?_, by simp, hy.2⟩
        rw [hc', hy.1]

/-- Pre-order yields a node only after its resolved parent (or the traversal
start) has already been yielded. -/
theorem dfs_visits_parent (s : List Node) (res : Nat → Nat)
    (hkc : KidsOk s res) (hr : ResOk s res) :
    ∀ fuel k m a v b, k < s.length → toRoot res s.length k = some m →
      s.length ≤ fuel + m → dfsVisits s false fuel k = a ++ v :: b →
      v = k ∨ res v ∈ k :: a := by
  intro fuel
  induction fuel with
  | zero =>
    intro k m a v b _ _ _ h
    exfalso
    simp only [dfsVisits, dfsEvents, visitKeys, List.filterMap_nil] at h
    cases a <;> simp at h
  | succ f ih =>
    intro k m a v b hk hm hle h
    rw [dfsVisits_succ] at h
    have bindCase : ∀ a₀ b₀,
        ((s.getD k rootNode).kids.flatMap fun c => dfsVisits s false f c) =
          a₀ ++ v :: b₀ →
        res v = k ∨ res v ∈ a₀ := by
      intro a₀ b₀ hb
      obtain ⟨l₁, c, l₂, fa, fb, hl, hfc, ha, _⟩ :=
        flatMap_split _ _ _ _ _ hb
      have hcmem : c ∈ (s.getD k rootNode).kids := by
        rw [hl]; exact List.mem_append_right _ (List.mem_cons_self _ _)
      obtain ⟨hc1, hc2, hc3, hc4⟩ := child_rank s res hkc hr k c m hk hm hcmem
      have hmlt := toRoot_lt_length s res hr _ _ _ hc2 hc4
      have hf1 : 1 ≤ f := by omega
      obtain ⟨rest, hrest⟩ := dfs_visits_head s f c (by omega) hf1
      cases fa with
      | nil =>
        have hcv : c :: rest = v :: fb := by
          rw [← hrest, hfc]
          rfl
        injection hcv with h1 _
        left
        rw [← h1, hc3]
      | cons x fa' =>
        have hx : x = c := by
          have h2 : c :: rest = (x :: fa') ++ v :: fb := by rw [← hrest, hfc]
          simp only [List.cons_append] at h2
          injection h2 with h1 _
          exact h1.symm
        rcases ih c (m + 1) (x :: fa') v fb hc2 hc4 (by omega) hfc with
          hvc | hres
        · left; rw [hvc, hc3]
        · right
          rw [ha]
          rcases List.mem_cons.mp hres with hres | hres
          · refine List.mem_append_right _ ?_
            rw [hres, ← hx]
            exact List.mem_cons_self _ _
          · exact List.mem_append_right _ hres
    by_cases hk0 : k = 0
    · subst hk0
      simp only [ne_eq, not_true_eq_false, if_neg, List.nil_append,
        not_false_eq_true, ite_false] at h
      rcases bindCase a b (by simpa using h) with h1 | h1
      · right; rw [h1]; exact List.mem_cons_self _ _
      · right; exact List.mem_cons_of_mem _ h1
    · simp only [hk0, ne_eq, not_false_eq_true, if_pos,
        List.singleton_append] at h
      cases a with
      | nil =>
        simp only [List.nil_append] at h
        injection h with h1 _
        exact Or.inl h1.symm
      | cons x a' =>
        simp only [List.cons_append] at h
        injection h with h1 h2
        rcases bindCase a' b h2 with hh | hh
        · right; rw [hh]; exact List.mem_cons_self _ _
        · right; exact List.mem_cons_of_mem _ (List.mem_cons_of_mem _ hh)

theorem perm_flatMap_congr {α β : Type} (l : List α) (p q : α → List β)
    (h : ∀ x ∈ l, (p x).Perm (q x)) : (l.flatMap p).Perm (l.flatMap q) := by
  induction l with
  | nil => exact List.Perm.refl _
  | cons x xs ih =>
    simp only [List.flatMap_cons]
    exact List.Perm.append (h x (List.mem_cons_self x xs))
      (ih fun y hy => h y (List.mem_cons_of_mem x hy))

/-- For every subtree of a nonzero node, the hook fires exactly once per
yielded node: the multiset of hook names equals the multiset of names of the
yielded nodes (at any fuel — truncation drops visits and firings together). -/
theorem dfs_done_perm (s : List Node) (res : Nat → Nat) (hkc : KidsOk s res) :
    ∀ fuel k, 0 < k → k < s.length →
      (doneNames (dfsEvents s false fuel k)).Perm
        ((dfsVisits s false fuel k).map fun v => (s.getD v rootNode).name) := by
  intro fuel
  induction fuel with
  | zero => intro k _ _; simp [dfsEvents, dfsVisits, doneNames, visitKeys]
  | succ f ih =>
    intro k hk0 hk
    rw [dfsEvents_succ, dfsVisits_succ]
    simp only [Nat.pos_iff_ne_zero.mp hk0, ne_eq, not_false_eq_true, if_pos]
    rw [doneNames_append, doneNames_append, doneNames_flatMap]
    have h1 : doneNames [Event.visit k] = [] := by simp [doneNames]
    have h2 : doneNames [Event.done (s.getD k rootNode).name] =
        [(s.getD k rootNode).name] := by simp [doneNames]
    rw [h1, h2, List.nil_append]
    simp only [List.singleton_append, List.map_cons]
    refine List.Perm.trans (List.perm_append_singleton _ _) ?_
    refine List.Perm.cons _ ?_
    rw [List.map_flatMap]
    refine perm_flatMap_congr _ _ _ ?_
    intro c hc
    obtain ⟨hc1, hc2, _⟩ := (kids_mem s res hkc k c hk).mp hc
    exact ih c hc1 hc2

/-- The full walk from the synthetic root: one hook firing for the root on
top of one per yielded node. -/
theorem dfs_done_perm_root (s : List Node) (res : Nat → Nat)
    (hkc : KidsOk s res) (f : Nat) (h0 : 0 < s.length) :
    (doneNames (dfsEvents s false (f + 1) 0)).Perm
      ((s.getD 0 rootNode).name ::
        ((dfsVisits s false (f + 1) 0).map fun v => (s.getD v rootNode).name)) := by
  rw [dfsEvents_succ, dfsVisits_succ]
  simp only [ne_eq, not_true_eq_false, if_neg, List.nil_append, ite_false]
  rw [doneNames_append, doneNames_flatMap]
  have h2 : doneNames [Event.done (s.getD 0 rootNode).name] =
      [(s.getD 0 rootNode).name] := by simp [doneNames]
  rw [h2]
  refine List.Perm.trans (List.perm_append_singleton _ _) ?_
  refine List.Perm.cons _ ?_
  rw [List.map_flatMap]
  refine perm_flatMap_congr _ _ _ ?_
  intro c hc
  obtain ⟨hc1, hc2, _⟩ := (kids_mem s res hkc 0 c h0).mp hc
  exact dfs_done_perm s res hkc f c hc1 hc2

/-- Every visited node's complete subtree traversal (at canonical fuel) is a
contiguous segment of the traversal, ending with that node's hook firing. -/
theorem dfs_subtree_infix (s : List Node) (res : Nat → Nat)
    (hkc : KidsOk s res) (hr : ResOk s res) :
    ∀ fuel k m v, k < s.length → toRoot res s.length k = some m →
      s.length ≤ fuel + m → v ∈ dfsVisits s false fuel k →
      ∃ pre post, dfsEvents s false fuel k =
        pre ++ dfsEvents s false s.length v ++ post := by
  intro fuel
  induction fuel with
  | zero =>
    intro k m v _ _ _ hv
    simp [dfsVisits, dfsEvents, visitKeys] at hv
  | succ f ih =>
    intro k m v hk hm hle hv
    rw [dfsVisits_succ] at hv
    rcases List.mem_append.mp hv with hv | hv
    · by_cases hk0 : k = 0
      · simp [hk0] at hv
      · simp [hk0] at hv
        subst hv
        refine ⟨[], [], ?_⟩
        rw [List.nil_append, List.append_nil]
        exact dfs_fuel_stable s res hkc hr (f + 1) s.length v m hk hm hle
          (by have := toRoot_lt_length s res hr _ _ _ hk hm; omega)
    · obtain ⟨c, hc, hvc⟩ := List.mem_flatMap.mp hv
      obtain ⟨_, hc2, _, hc4⟩ := child_rank s res hkc hr k c m hk hm hc
      obtain ⟨pre', post', hsplit⟩ :=
        ih c (m + 1) v hc2 hc4 (by omega) hvc
      obtain ⟨l₁, l₂, hl⟩ := List.append_of_mem hc
      rw [dfsEvents_succ, hl, List.flatMap_append, List.flatMap_cons, hsplit]
      refine ⟨(if k ≠ 0 then [Event.visit k] else []) ++
        (l₁.flatMap fun c => dfsEvents s false f c) ++ pre',
        post' ++ (l₂.flatMap fun c => dfsEvents s false f c) ++
          [Event.done (s.getD k rootNode).name], ?_⟩
      simp [List.append_assoc]

/-- A traversal with at least one unit of fuel ends with the hook firing for
the start node. -/
theorem dfs_last_done (s : List Node) (po : Bool) (f k : Nat) :
    (dfsEvents s po (f + 1) k).getLast? =
      some (Event.done (s.getD k rootNode).name) := by
  simp [dfsEvents, List.getLast?_append]

/-- Two stores with the same kids lists and names produce the same
traversal. -/
theorem dfs_congr (s₁ s₂ : List Node) (po : Bool)
    (h : ∀ i, (s₁.getD i rootNode).kids = (s₂.getD i rootNode).kids ∧
      (s₁.getD i rootNode).name = (s₂.getD i rootNode).name) :
    ∀ fuel k, dfsEvents s₁ po fuel k = dfsEvents s₂ po fuel k := by
  intro fuel
  induction fuel with
  | zero => intro k; rfl
  | succ f ih =>
    intro k
    simp only [dfsEvents]
    rw [(h k).1, (h k).2]
    rw [flatMap_congr _ (fun c => dfsEvents s₁ po f c)
      (fun c => dfsEvents s₂ po f c) fun c _ => ih c]

/-! ## Characterization of `index()` -/

theorem listModify_ge {α : Type} (l : List α) (i : Nat) (f : α → α)
    (h : l.length ≤ i) : listModify l i f = l := by
  induction l generalizing i with
  | nil => rfl
  | cons x xs ih =>
    cases i with
    | zero => simp at h
    | succ n => simp only [listModify]; rw [ih n (by simpa using h)]

theorem getD_listModify {α : Type} (l : List α) (i j : Nat) (f : α → α)
    (d : α) :
    (listModify l i f).getD j d =
      if j = i ∧ i < l.length then f (l.getD j d) else l.getD j d := by
  by_cases h1 : j = i
  · subst h1
    by_cases h2 : j < l.length
    · rw [getD_listModify_eq _ _ _ _ h2]
      simp [h2]
    · rw [listModify_ge l j f (by omega)]
      simp [h2]
  · rw [getD_listModify_ne _ _ _ _ _ h1]
    simp [h1]

theorem assignStep_length (nameIdx : List (String × Nat)) (st : List Node)
    (k : Nat) : (assignStep nameIdx st k).length = st.length := by
  simp [assignStep, listModify_length]

/-- `assignStep` changes only the `parent` and `kids` fields. -/
theorem assignStep_fields (nameIdx : List (String × Nat)) (st : List Node)
    (k i : Nat) :
    ((assignStep nameIdx st k).getD i rootNode).name =
        (st.getD i rootNode).name ∧
      ((assignStep nameIdx st k).getD i rootNode).pname =
        (st.getD i rootNode).pname ∧
      ((assignStep nameIdx st k).getD i rootNode).attrs =
        (st.getD i rootNode).attrs ∧
      ((assignStep nameIdx st k).getD i rootNode).depth =
        (st.getD i rootNode).depth := by
  unfold assignStep
  rw [getD_listModify, getD_listModify]
  split <;> split <;> simp [listModify_length]

/-- `depthStep` changes only the `depth` field. -/
theorem depthStep_fields (st : List Node) (k i : Nat) :
    ((depthStep st k).getD i rootNode).name = (st.getD i rootNode).name ∧
      ((depthStep st k).getD i rootNode).pname = (st.getD i rootNode).pname ∧
      ((depthStep st k).getD i rootNode).attrs = (st.getD i rootNode).attrs ∧
      ((depthStep st k).getD i rootNode).kids = (st.getD i rootNode).kids ∧
      ((depthStep st k).getD i rootNode).parent =
        (st.getD i rootNode).parent := by
  unfold depthStep
  split
  · rw [getD_listModify]
    split <;> simp
  · simp

theorem depthStep_length (st : List Node) (k : Nat) :
    (depthStep st k).length = st.length := by
  unfold depthStep
  split
  · simp [listModify_length]
  · rfl

theorem depthFold_length (V : List Nat) (st : List Node) :
    (V.foldl depthStep st).length = st.length := by
  induction V generalizing st with
  | nil => rfl
  | cons v vs ih => simp only [List.foldl_cons]; rw [ih, depthStep_length]

theorem depthFold_fields (V : List Nat) (st : List Node) (i : Nat) :
    ((V.foldl depthStep st).getD i rootNode).name =
        (st.getD i rootNode).name ∧
      ((V.foldl depthStep st).getD i rootNode).pname =
        (st.getD i rootNode).pname ∧
      ((V.foldl depthStep st).getD i rootNode).attrs =
        (st.getD i rootNode).attrs ∧
      ((V.foldl depthStep st).getD i rootNode).kids =
        (st.getD i rootNode).kids ∧
      ((V.foldl depthStep st).getD i rootNode).parent =
        (st.getD i rootNode).parent := by
  induction V generalizing st with
  | nil => exact ⟨rfl, rfl, rfl, rfl, rfl⟩
  | cons v vs ih =>
    simp only [List.foldl_cons]
    obtain ⟨h1, h2, h3, h4, h5⟩ := ih (depthStep st v)
    obtain ⟨g1, g2, g3, g4, g5⟩ := depthStep_fields st v i
    exact ⟨h1.trans g1, h2.trans g2, h3.trans g3, h4.trans g4, h5.trans g5⟩

theorem clearKids_getD (t : EDMTree) (i : Nat) :
    ((t.store.map fun n => { n with kids := ([] : List Nat) }).getD i
      rootNode) = { (t.store.getD i rootNode) with kids := [] } := by
  simp only [List.getD_eq_getElem?_getD, List.getElem?_map]
  cases t.store[i]? <;> rfl

/-- The invariant of the child-reference pass: after processing `done`, the
kids lists are exactly the `done`-keys grouped by resolved parent (in
processing order) and each processed key's `parent` field holds its resolved
parent; names, parent names, attributes and depths are untouched. -/
theorem assign_fold (t : EDMTree)
    (hres : ∀ k, t.resolve k < t.store.length) :
    ∀ (todo done : List Nat) (st : List Node),
      st.length = t.store.length →
      (done ++ todo).Nodup →
      (∀ x ∈ done ++ todo, 1 ≤ x ∧ x < t.store.length) →
      (∀ i, (st.getD i rootNode).name = (t.store.getD i rootNode).name ∧
        (st.getD i rootNode).pname = (t.store.getD i rootNode).pname ∧
        (st.getD i rootNode).attrs = (t.store.getD i rootNode).attrs ∧
        (st.getD i rootNode).depth = (t.store.getD i rootNode).depth) →
      (∀ i, (st.getD i rootNode).kids =
        done.filter (fun k => t.resolve k == i)) →
      (∀ i ∈ done, (st.getD i rootNode).parent = some (t.resolve i)) →
      (todo.foldl (assignStep t.nameIndex) st).length = t.store.length ∧
      (∀ i, ((todo.foldl (assignStep t.nameIndex) st).getD i rootNode).name =
          (t.store.getD i rootNode).name ∧
        ((todo.foldl (assignStep t.nameIndex) st).getD i rootNode).pname =
          (t.store.getD i rootNode).pname ∧
        ((todo.foldl (assignStep t.nameIndex) st).getD i rootNode).attrs =
          (t.store.getD i rootNode).attrs ∧
        ((todo.foldl (assignStep t.nameIndex) st).getD i rootNode).depth =
          (t.store.getD i rootNode).depth) ∧
      (∀ i, ((todo.foldl (assignStep t.nameIndex) st).getD i rootNode).kids =
        (done ++ todo).filter (fun k => t.resolve k == i)) ∧
      (∀ i ∈ done ++ todo,
        ((todo.foldl (assignStep t.nameIndex) st).getD i rootNode).parent =
          some (t.resolve i)) := by
  intro todo
  induction todo with
  | nil =>
    intro done st hlen hnd hrange hfields hkids hpar
    simp only [List.foldl_nil, List.append_nil]
    exact ⟨hlen, hfields, hkids, hpar⟩
  | cons k todo' ih =>
    intro done st hlen hnd hrange hfields hkids hpar
    simp only [List.foldl_cons]
    have hk : 1 ≤ k ∧ k < t.store.length := by
      refine hrange k ?_
      exact List.mem_append_right _ (List.mem_cons_self _ _)
    have hkst : k < st.length := by omega
    have hpres : t.resolve k < st.length := by rw [hlen]; exact hres k
    -- the step resolves through the untouched pname, i.e. to `t.resolve k`
    have hstep : assignStep t.nameIndex st k =
        listModify (listModify st k fun n => { n with
          parent := some (t.resolve k) }) (t.resolve k)
          fun n => { n with kids := n.kids ++ [k] } := by
      unfold assignStep
      rw [(hfields k).2.1]
      rfl
    have hlen' : (assignStep t.nameIndex st k).length = t.store.length := by
      rw [assignStep_length, hlen]
    have hknotdone : k ∉ done := by
      have hd := hnd
      rw [List.nodup_append] at hd
      exact fun hkd => hd.2.2 hkd (List.mem_cons_self _ _)
    have hfilt : ∀ i, (done ++ [k]).filter (fun x => t.resolve x == i) =
        done.filter (fun x => t.resolve x == i) ++
          (if t.resolve k = i then [k] else []) := by
      intro i
      rw [List.filter_append]
      congr 1
      simp only [List.filter_cons, List.filter_nil]
      by_cases hki : t.resolve k = i
      · simp [hki]
      · simp [hki]
    have hfields' : ∀ i, ((assignStep t.nameIndex st k).getD i rootNode).name =
          (t.store.getD i rootNode).name ∧
        ((assignStep t.nameIndex st k).getD i rootNode).pname =
          (t.store.getD i rootNode).pname ∧
        ((assignStep t.nameIndex st k).getD i rootNode).attrs =
          (t.store.getD i rootNode).attrs ∧
        ((assignStep t.nameIndex st k).getD i rootNode).depth =
          (t.store.getD i rootNode).depth := by
      intro i
      obtain ⟨f1, f2, f3, f4⟩ := assignStep_fields t.nameIndex st k i
      obtain ⟨g1, g2, g3, g4⟩ := hfields i
      exact ⟨f1.trans g1, f2.trans g2, f3.trans g3, f4.trans g4⟩
    have hkids' : ∀ i, ((assignStep t.nameIndex st k).getD i rootNode).kids =
        (done ++ [k]).filter (fun x => t.resolve x == i) := by
      intro i
      rw [hstep, getD_listModify, hfilt i]
      by_cases hip : i = t.resolve k
      · rw [if_pos ⟨hip, by rw [listModify_length]; omega⟩]
        simp only []
        rw [getD_listModify]
        by_cases hik : i = k
        · rw [if_pos ⟨hik, by omega⟩]
          simp only []
          rw [hkids i]
          simp [hip]
        · rw [if_neg (by intro hc; exact hik hc.1)]
          rw [hkids i]
          simp [hip]
      · rw [if_neg (by intro hc; exact hip (hc.1.symm ▸ rfl))]
        rw [if_neg (by intro hc; exact hip hc.symm)]
        rw [getD_listModify]
        by_cases hik : i = k
        · rw [if_pos ⟨hik, by omega⟩]
          simp only []
          rw [hkids i]
          simp
        · rw [if_neg (by intro hc; exact hik hc.1)]
          rw [hkids i]
          simp
    have hpar' : ∀ i ∈ done ++ [k],
        ((assignStep t.nameIndex st k).getD i rootNode).parent =
          some (t.resolve i) := by
      intro i hi
      rw [hstep, getD_listModify]
      have hbase : ((listModify st k fun n =>
          { n with parent := some (t.resolve k) }).getD i rootNode).parent =
          some (t.resolve i) := by
        rw [getD_listModify]
        by_cases hik : i = k
        · rw [if_pos ⟨hik, by omega⟩]
          simp [hik]
        · rw [if_neg (by intro hc; exact hik hc.1)]
          rcases List.mem_append.mp hi with hid | hid
          · exact hpar _ hid
          · simp at hid
            exact absurd hid hik
      by_cases hip : i = t.resolve k
      · rw [if_pos ⟨hip, by rw [listModify_length]; omega⟩]
        simpa using hbase
      · rw [if_neg (by intro hc; exact hip (hc.1.symm ▸ rfl))]
        exact hbase
    have hnd' : ((done ++ [k]) ++ todo').Nodup := by
      rw [List.append_assoc]
      simpa using hnd
    have hrange' : ∀ x ∈ (done ++ [k]) ++ todo',
        1 ≤ x ∧ x < t.store.length := by
      intro x hx
      refine hrange x ?_
      rw [List.append_assoc] at hx
      simpa using hx
    have := ih (done ++ [k]) (assignStep t.nameIndex st k) hlen' hnd'
      hrange' hfields' hkids' hpar'
    obtain ⟨c1, c2, c3, c4⟩ := this
    refine ⟨c1, c2, ?_, ?_⟩
    · intro i
      rw [c3 i, List.append_assoc]
      rfl
    · intro i hi
      refine c4 i ?_
      rw [List.append_assoc]
      simpa using hi

/-- Correctness of the depth pass: processing the visit list in an order
where each node's resolved parent comes earlier (or is the root, fixed at
depth `-1`), every processed node ends with `depth = parent depth + 1`. -/
theorem depth_fold_go (res : Nat → Nat) :
    ∀ (V done : List Nat) (st : List Node),
      (done ++ V).Nodup →
      0 ∉ V →
      (∀ a v b, V = a ++ v :: b → res v = 0 ∨ res v ∈ done ++ a) →
      (∀ x ∈ done, res x = 0 ∨ res x ∈ done) →
      (∀ v ∈ V, v < st.length ∧
        (st.getD v rootNode).parent = some (res v)) →
      (st.getD 0 rootNode).depth = some (-1) →
      (∀ x ∈ done, ∃ dp : Int,
        (st.getD (res x) rootNode).depth = some dp ∧
        (st.getD x rootNode).depth = some (dp + 1)) →
      ∀ x ∈ done ++ V, ∃ dp : Int,
        ((V.foldl depthStep st).getD (res x) rootNode).depth = some dp ∧
        ((V.foldl depthStep st).getD x rootNode).depth = some (dp + 1) := by
  intro V
  induction V with
  | nil =>
    intro done st _ _ _ _ _ _ hdone x hx
    simp only [List.foldl_nil]
    exact hdone x (by simpa using hx)
  | cons v V' ih =>
    intro done st hnd h0 hprec hdclosed hv hroot hdone
    simp only [List.foldl_cons]
    have hv0 : v ≠ 0 := fun h => h0 (h ▸ List.mem_cons_self _ _)
    have hvmem : v ∈ v :: V' := List.mem_cons_self _ _
    have hvlen : v < st.length := (hv v hvmem).1
    have hvpar : (st.getD v rootNode).parent = some (res v) := (hv v hvmem).2
    have hvnotdone : v ∉ done := by
      have hd := hnd
      rw [List.nodup_append] at hd
      exact fun hkd => hd.2.2 hkd hvmem
    have hvres : res v = 0 ∨ res v ∈ done := by
      rcases hprec [] v V' rfl with h | h
      · exact Or.inl h
      · exact Or.inr (by simpa using h)
    have hstep : depthStep st v = listModify st v (fun n =>
        { n with
          depth := some (((st.getD (res v) rootNode).depth).getD 0 + 1) }) := by
      unfold depthStep
      rw [if_pos hv0, hvpar]
      rfl
    obtain ⟨dp0, hdp0⟩ : ∃ dp0 : Int,
        (st.getD (res v) rootNode).depth = some dp0 := by
      rcases hvres with h | h
      · exact ⟨-1, h ▸ hroot⟩
      · obtain ⟨dp, _, h2⟩ := hdone (res v) h
        exact ⟨dp + 1, h2⟩
    have hvne : v ≠ res v := by
      rcases hvres with h | h
      · exact fun hh => hv0 (hh.trans h)
      · exact fun hh => hvnotdone (hh ▸ h)
    have hget_v : ((depthStep st v).getD v rootNode).depth =
        some (dp0 + 1) := by
      rw [hstep, getD_listModify, if_pos ⟨rfl, hvlen⟩]
      show some ((st.getD (res v) rootNode).depth.getD 0 + 1) = some (dp0 + 1)
      rw [hdp0]
      rfl
    have hget_ne : ∀ j, j ≠ v →
        ((depthStep st v).getD j rootNode).depth =
          (st.getD j rootNode).depth := by
      intro j hj
      rw [hstep, getD_listModify, if_neg (by intro hc; exact hj hc.1)]
    have hnd' : ((done ++ [v]) ++ V').Nodup := by
      rw [List.append_assoc]
      simpa using hnd
    have h0' : 0 ∉ V' := fun h => h0 (List.mem_cons_of_mem _ h)
    have hprec' : ∀ a u b, V' = a ++ u :: b →
        res u = 0 ∨ res u ∈ (done ++ [v]) ++ a := by
      intro a u b hsp
      rcases hprec (v :: a) u b (by rw [hsp]; rfl) with h | h
      · exact Or.inl h
      · right
        rw [List.append_assoc]
        rcases List.mem_append.mp h with h | h
        · exact List.mem_append_left _ h
        · exact List.mem_append_right _ (by simpa using h)
    have hdclosed' : ∀ x ∈ done ++ [v], res x = 0 ∨ res x ∈ done ++ [v] := by
      intro x hx
      rcases List.mem_append.mp hx with hx | hx
      · rcases hdclosed x hx with h | h
        · exact Or.inl h
        · exact Or.inr (List.mem_append_left _ h)
      · simp at hx
        subst hx
        rcases hvres with h | h
        · exact Or.inl h
        · exact Or.inr (List.mem_append_left _ h)
    have hv' : ∀ u ∈ V', u < (depthStep st v).length ∧
        ((depthStep st v).getD u rootNode).parent = some (res u) := by
      intro u hu
      refine ⟨by rw [depthStep_length]; exact (hv u (List.mem_cons_of_mem _ hu)).1, ?_⟩
      have := (depthStep_fields st v u).2.2.2.2
      rw [this]
      exact (hv u (List.mem_cons_of_mem _ hu)).2
    have hroot' : ((depthStep st v).getD 0 rootNode).depth = some (-1) := by
      rw [hget_ne 0 (Ne.symm hv0)]
      exact hroot
    have hdone' : ∀ x ∈ done ++ [v], ∃ dp : Int,
        ((depthStep st v).getD (res x) rootNode).depth = some dp ∧
        ((depthStep st v).getD x rootNode).depth = some (dp + 1) := by
      intro x hx
      rcases List.mem_append.mp hx with hx | hx
      · obtain ⟨dp, h1, h2⟩ := hdone x hx
        have hxne : x ≠ v := fun hh => hvnotdone (hh ▸ hx)
        have hrxne : res x ≠ v := by
          rcases hdclosed x hx with h | h
          · exact fun hh => hv0 (hh.symm.trans h)
          · exact fun hh => hvnotdone (hh ▸ h)
        exact ⟨dp, by rw [hget_ne _ hrxne]; exact h1,
          by rw [hget_ne _ hxne]; exact h2⟩
      · simp at hx
        subst hx
        exact ⟨dp0, by rw [hget_ne _ (Ne.symm hvne)]; exact hdp0, hget_v⟩
    have := ih (done ++ [v]) (depthStep st v) hnd' h0' hprec' hdclosed'
      hv' hroot' hdone'
    intro x hx
    refine this x ?_
    rw [List.append_assoc]
    simpa using hx

theorem depthFold_depth_not_mem (V : List Nat) (st : List Node) (j : Nat)
    (h : j ∉ V) :
    ((V.foldl depthStep st).getD j rootNode).depth =
      (st.getD j rootNode).depth := by
  induction V generalizing st with
  | nil => rfl
  | cons v vs ih =>
    simp only [List.foldl_cons]
    rw [ih (depthStep st v) fun hj => h (List.mem_cons_of_mem _ hj)]
    have hjv : j ≠ v := fun hj => h (hj ▸ List.mem_cons_self _ _)
    unfold depthStep
    split
    · rw [getD_listModify, if_neg (by intro hc; exact hjv hc.1)]
    · rfl

/-! ## `index()` on well-formed trees -/

theorem WFb_parts (t : EDMTree) (h : WFb t = true) :
    t.store.length = t.lastId + 1 ∧
    (∀ nk ∈ t.nameIndex, 1 ≤ nk.2 ∧ nk.2 ≤ t.lastId) ∧
    (t.node 0).name = "000_EDMTree_Root" ∧
    (t.node 0).depth = some (-1) := by
  simp only [WFb, Bool.and_eq_true, List.all_eq_true, decide_eq_true_eq] at h
  refine ⟨h.1.1.1.1.1.1, ?_, h.1.1.1.2, h.1.1.2⟩
  intro nk hnk
  have := h.1.1.1.1.2 nk hnk
  simp only [Bool.and_eq_true, decide_eq_true_eq] at this
  exact this

theorem WF_resolve_lt (t : EDMTree) (h : WFb t = true) :
    ∀ k, t.resolve k < t.store.length := by
  intro k
  obtain ⟨hlen, hidx, _, _⟩ := WFb_parts t h
  unfold EDMTree.resolve
  cases hg : idxGet t.nameIndex (t.node k).pname with
  | none => simp [hlen]
  | some v =>
    have := hidx _ (idxGet_mem _ _ _ hg)
    simp only [Option.getD_some]
    omega

/-- The child-reference pass on a well-formed tree: lengths and the
name/pname/attrs/depth fields are untouched, the kids lists are the fibers
of `resolve` over `1..lastId` in ascending order, and each key `1..lastId`
records its resolved parent. -/
theorem assigned_spec (t : EDMTree) (hwf : WFb t = true) :
    t.assigned.length = t.store.length ∧
    (∀ i, (t.assigned.getD i rootNode).name =
        (t.store.getD i rootNode).name ∧
      (t.assigned.getD i rootNode).pname = (t.store.getD i rootNode).pname ∧
      (t.assigned.getD i rootNode).attrs = (t.store.getD i rootNode).attrs ∧
      (t.assigned.getD i rootNode).depth = (t.store.getD i rootNode).depth) ∧
    (∀ i, (t.assigned.getD i rootNode).kids =
      (List.range' 1 t.lastId).filter (fun k => t.resolve k == i)) ∧
    (∀ i ∈ List.range' 1 t.lastId,
      (t.assigned.getD i rootNode).parent = some (t.resolve i)) := by
  obtain ⟨hlen, _, _, _⟩ := WFb_parts t hwf
  have h := assign_fold t (WF_resolve_lt t hwf) (List.range' 1 t.lastId) []
    (t.store.map fun n => { n with kids := [] })
    (by simp)
    (by simpa using List.nodup_range' 1 t.lastId)
    (by
      intro x hx
      simp only [List.nil_append, List.mem_range'_1] at hx
      omega)
    (by
      intro i
      rw [clearKids_getD]
      exact ⟨rfl, rfl, rfl, rfl⟩)
    (by intro i; rw [clearKids_getD]; rfl)
    (by intro i hi; simp at hi)
  simpa using h

theorem index_store_facts (t : EDMTree) (hwf : WFb t = true) :
    (t.index).store.length = t.lastId + 1 ∧
    KidsOk (t.index).store t.resolve ∧
    ResOk (t.index).store t.resolve ∧
    (∀ i, ((t.index).store.getD i rootNode).name =
        (t.store.getD i rootNode).name) ∧
    ((t.index).store.getD 0 rootNode).kids =
      (List.range' 1 t.lastId).filter (fun k => t.resolve k == 0) := by
  obtain ⟨hlen, hidx, hroot, hdepth⟩ := WFb_parts t hwf
  obtain ⟨halen, hafields, hakids, hapar⟩ := assigned_spec t hwf
  have heq : (t.index).store =
      (dfsVisits t.assigned false t.assigned.length 0).foldl depthStep
        t.assigned := rfl
  have hilen : (t.index).store.length = t.lastId + 1 := by
    rw [heq, depthFold_length, halen, hlen]
  have hikids : ∀ i, ((t.index).store.getD i rootNode).kids =
      (List.range' 1 t.lastId).filter (fun k => t.resolve k == i) := by
    intro i
    rw [heq, (depthFold_fields _ _ i).2.2.2.1, hakids i]
  refine ⟨hilen, ?_, ?_, ?_, hikids 0⟩
  · intro j hj
    rw [hikids j, hilen]
    simp
  · intro k hk0 hklen
    rw [hilen]
    have := WF_resolve_lt t hwf k
    omega
  · intro i
    rw [heq, (depthFold_fields _ _ i).1, (hafields i).1]

/-! ## Helper lemmas for the claims -/

theorem mk_toList (s : String) : String.mk s.toList = s := by
  cases s
  rfl

theorem map_id_on {α : Type} (l : List α) (f : α → α)
    (h : ∀ c ∈ l, f c = c) : l.map f = l := by
  induction l with
  | nil => rfl
  | cons x xs ih =>
    rw [List.map_cons, h x (List.mem_cons_self x xs),
      ih fun c hc => h c (List.mem_cons_of_mem x hc)]

theorem pySplitCharAux_no_sep (sep : Char) (cs acc : List Char)
    (h : ∀ c ∈ cs, c ≠ sep) :
    pySplitCharAux sep cs acc = [String.mk (acc.reverse ++ cs)] := by
  induction cs generalizing acc with
  | nil => simp [pySplitCharAux]
  | cons c cs ih =>
    rw [pySplitCharAux, if_neg (h c (List.mem_cons_self c cs))]
    rw [ih (c :: acc) fun d hd => h d (List.mem_cons_of_mem c hd)]
    simp

/-- Characterization of brace balance: no prefix of the input closes more
groups than were opened (relative to a starting nesting depth `d`). -/
def noUnderflow : List Char → Nat → Bool
  | [], _ => true
  | c :: cs, d =>
    if c = '{' then noUnderflow cs (d + 1)
    else if c = '}' then decide (0 < d) && noUnderflow cs (d - 1)
    else noUnderflow cs d

theorem scanAux_ok : ∀ (cs tok : List Char) (cur : List PyVal)
    (stack : List (List PyVal)), noUnderflow cs stack.length = true →
    ∃ l, scanAux cs tok cur stack = Except.ok l := by
  intro cs
  induction cs with
  | nil => intro tok cur stack _; exact ⟨_, rfl⟩
  | cons c cs ih =>
    intro tok cur stack h
    rw [noUnderflow] at h
    have hgoal : ∀ st : List (List PyVal), scanAux (c :: cs) tok cur st =
        if c = '{' then scanAux cs [] [] (flushTok cur tok :: st)
        else if c = '}' then
          match st with
          | parent :: rest =>
            scanAux cs [] (parent ++ [PyVal.list (flushTok cur tok)]) rest
          | [] => deadScan cs (flushTok cur tok)
        else scanAux cs (c :: tok) cur st := fun st => rfl
    rw [hgoal stack]
    by_cases h1 : c = '{'
    · rw [if_pos h1] at h ⊢
      exact ih [] [] (flushTok cur tok :: stack) (by simpa using h)
    · rw [if_neg h1] at h ⊢
      by_cases h2 : c = '}'
      · rw [if_pos h2] at h ⊢
        cases stack with
        | nil => simp at h
        | cons parent rest =>
          exact ih [] (parent ++ [PyVal.list (flushTok cur tok)]) rest
            (by simpa using h)
      · rw [if_neg h2] at h ⊢
        exact ih (c :: tok) cur stack h

/-- The pair recorded for a visit event under a fixed active owner. -/
def visitPair (o : Option PyVal) : Event → Option (Nat × Option PyVal)
  | .visit k => some (k, o)
  | .done _ => Option.none

/-- The emitted effective-owner pair list of a run over events that never
close the active scope: the state is inert and every visited node receives
the active owner. -/
theorem ownRun_inertia (store : List Node) :
    ∀ (L : List Event) (s : OwnState) (out : List (Nat × Option PyVal)),
      truthyO s.docOwner = true →
      (∀ nm, Event.done nm ∈ L → s.treeTop ≠ some nm) →
      L.foldl (ownStep store) (s, out) =
        (s, out ++ L.filterMap (visitPair s.docOwner)) := by
  intro L
  induction L with
  | nil => intro s out _ _; simp
  | cons e L ih =>
    intro s out htruthy hdone
    cases e with
    | visit k =>
      have hv : ownVisit store s k = s := by
        unfold ownVisit
        rw [htruthy]
        simp
      have hstep : ownStep store (s, out) (Event.visit k) =
          (s, out ++ [(k, s.docOwner)]) := by
        show (ownVisit store s k,
            out ++ [(k, (ownVisit store s k).docOwner)]) =
          (s, out ++ [(k, s.docOwner)])
        rw [hv]
      rw [List.foldl_cons, hstep,
        ih s (out ++ [(k, s.docOwner)]) htruthy
          fun nm hnm => hdone nm (List.mem_cons_of_mem _ hnm)]
      simp [List.filterMap_cons, visitPair]
    | done nm =>
      have hstep : ownStep store (s, out) (Event.done nm) = (s, out) := by
        show (ownDone s nm, out) = (s, out)
        unfold ownDone
        rw [if_neg fun hc =>
          hdone nm (List.mem_cons_self _ _) (Eq.symm hc)]
      rw [List.foldl_cons, hstep,
        ih s out htruthy fun nm' hnm => hdone nm' (List.mem_cons_of_mem _ hnm)]
      simp [List.filterMap_cons, visitPair]

theorem filterMap_visit_pair (L : List Event) (o : Option PyVal) :
    L.filterMap (visitPair o) = (visitKeys L).map fun v => (v, o) := by
  unfold visitKeys
  rw [List.map_filterMap]
  congr 1
  funext e
  cases e <;> rfl

/-! ## Claim C3 -/

/-- C3, counterexample: the claim says the nested group `{c d}` is split
into the words `["c", "d"]`, but `splitOnBracketsOrSpace` does not descend
into nested groups — the inner group stays the single string `"c d"`. -/
theorem claim3_counterexample :
    splitOnBracketsOrSpace "a {{b} {c d}} e" ≠
      Except.ok [.str "a", .list [.list [.str "b"],
        .list [.str "c", .str "d"]], .str "e"] := by
  decide

/-- C3 (amended): `splitOnBracketsOrSpace "a {b c} d"` is
`["a", "b c", "d"]` as claimed, and `splitOnBracketsOrSpace
"a {{b} {c d}} e"` is `["a", [["b"], ["c d"]], "e"]`: nested groups are
preserved as nested lists but the multi-word inner group stays one string. -/
theorem claim3_tokenizer :
    splitOnBracketsOrSpace "a {b c} d" =
      Except.ok [.str "a", .str "b c", .str "d"] ∧
    splitOnBracketsOrSpace "a {{b} {c d}} e" =
      Except.ok [.str "a", .list [.list [.str "b"], .list [.str "c d"]],
        .str "e"] := by
  constructor <;> decide

/-! ## Claim C4 -/

/-- C4 (code bug): on an indexed tree where child `b` (key 2) is present in
its parent `a`'s kids list, `adopt` hits the source line
`oldParent['kids'].remove[key]` — subscripting the bound method — and raises
`TypeError` instead of removing the key and returning normally. -/
theorem claim4_adopt_raises :
    2 ∈ (adoptTree.node 1).kids ∧
    adoptTree.find ((adoptTree.node 2).pname) = some 1 ∧
    adoptTree.adopt 2 "c" =
      Except.error
        "TypeError: 'builtin_function_or_method' object is not subscriptable" := by
  refine ⟨by decide, by decide, by decide⟩

/-! ## Claim C6 -/

/-- C6 (code bug): `breadthFirst` is not level-order.  In `bfsTree` the
nodes are yielded in the order `[1, 2, 3, 4, 5]`, but node 4 has depth 2
while the later node 5 has depth 1 — a deeper node is yielded before a
shallower one, contradicting the docstring's "Level-order" and the spec. -/
theorem claim6_bfs_not_level_order :
    bfsKeys bfsTree.store bfsTree.store.length 0 = [1, 2, 3, 4, 5] ∧
    (bfsTree.node 4).depth = some 2 ∧
    (bfsTree.node 5).depth = some 1 := by
  refine ⟨by decide, by decide, by decide⟩

/-! ## Claim C7 -/

/-- C7, counterexample: an unmatched closing brace followed by non-space
content raises (`self.current` became `None` and the next append fails), so
`splitOnBracketsOrSpace` does not return normally for every input. -/
theorem claim7_counterexample :
    splitOnBracketsOrSpace "\x7da" =
      Except.error "AttributeError: NoneType has no attribute" := by
  decide

/-- C7 (amended): `splitOnBracketsOrSpace` returns normally for every input
in which no prefix contains more `}` than `{` — in particular dangling open
braces never raise (the unclosed groups are closed implicitly at end of
input); only an unmatched closing brace followed by further content can
raise. -/
theorem claim7_tokenizer_total (s : String)
    (h : noUnderflow s.toList 0 = true) :
    ∃ l, splitOnBracketsOrSpace s = Except.ok l := by
  unfold splitOnBracketsOrSpace
  by_cases ht : strTruthy s
  · rw [if_pos ht]
    obtain ⟨l, hl⟩ := scanAux_ok s.toList [] [] [] (by simpa using h)
    rw [show nestedParse s = scanAux s.toList [] [] [] from rfl, hl]
    exact ⟨_, rfl⟩
  · rw [if_neg ht]
    exact ⟨[], rfl⟩

/-- C7, witness: a dangling open brace is handled without raising. -/
theorem claim7_witness :
    noUnderflow "a \x7bb c".toList 0 = true ∧
    ∃ l, splitOnBracketsOrSpace "a \x7bb c" = Except.ok l :=
  ⟨by decide, claim7_tokenizer_total "a \x7bb c" (by decide)⟩

/-! ## Claim C10 -/

/-- C10, counterexample: a document number containing `|` (but neither `-`
nor `.`) is split at the pre-existing `|` separators, so `DOC_TYPE` is not
the whole input string. -/
theorem claim10_counterexample :
    parseAlmaDocNum "a|b" =
      [("DOC_TYPE", PyVal.str "b"), ("DOC_VERSION", PyVal.str "a")] ∧
    parseAlmaDocNum "a|b" ≠
      [("DOC_TYPE", PyVal.str "a|b"), ("DOC_VERSION", PyVal.str "")] := by
  constructor <;> decide

/-- C10 (amended): for every non-empty document number containing none of
`-`, `.`, `|`, splitting yields a single component, `DOC_TYPE` is assigned
the whole string before the failing access to the second-to-last component,
and the swallowed `IndexError` leaves `DOC_VERSION` at its empty default. -/
theorem claim10_doc_num (s : String) (hne : s ≠ "")
    (h : ∀ c ∈ s.toList, c ≠ '-' ∧ c ≠ '.' ∧ c ≠ '|') :
    parseAlmaDocNum s =
      [("DOC_TYPE", PyVal.str s), ("DOC_VERSION", PyVal.str "")] := by
  have htr : pyTranslateDashDot s = s := by
    unfold pyTranslateDashDot
    rw [map_id_on _ _ fun c hc => by
      obtain ⟨h1, h2, _⟩ := h c hc
      simp [h1, h2]]
    exact mk_toList s
  have hsplit : pySplitChar s '|' = [s] := by
    unfold pySplitChar
    rw [pySplitCharAux_no_sep '|' s.toList [] fun c hc => (h c hc).2.2]
    simp [mk_toList]
  have hie : s.isEmpty = false := by
    rw [← Bool.not_eq_true]
    intro hc
    exact hne ((String.isEmpty_iff s).mp hc)
  have ht : strTruthy s = true := by
    unfold strTruthy
    rw [hie]
    rfl
  unfold parseAlmaDocNum
  rw [if_pos ht, htr, hsplit]
  simp [dictSet, List.getLastD]

/-- C10, witness. -/
theorem claim10_witness :
    parseAlmaDocNum "ICD" =
      [("DOC_TYPE", PyVal.str "ICD"), ("DOC_VERSION", PyVal.str "")] :=
  claim10_doc_num "ICD" (by decide) (by decide)

/-! ## Claim C8 -/

/-- Modelled from the spec: the fixed extension→display-name table. -/
def fileTypeTable : List (String × String) :=
  [("pdf", "Adobe PDF"), ("dwg", "AUTOCAD DWG"),
   ("doc", "MS Word"), ("docx", "MS Word"), ("docm", "MS Word"),
   ("ppt", "MS PowerPoint"), ("pptx", "MS PowerPoint"),
   ("pptm", "MS PowerPoint"),
   ("xls", "MS Excel"), ("xlsx", "MS Excel"), ("xlsm", "MS Excel"),
   ("xlst", "MS Excel"),
   ("mpp", "MS Project"), ("mpt", "MS Project"),
   ("vsd", "MS Visio"), ("vsdx", "MS Visio"), ("vsdm", "MS Visio"),
   ("txt", "Txt"), ("csv", "Txt"), ("ini", "Txt")]

/-- Modelled from the spec: table lookup; unmapped extensions pass through
upper-cased verbatim. -/
def specFileTypeLabel (ext : String) : String :=
  match fileTypeTable.lookup ext with
  | some l => l
  | Option.none => pyToUpper ext

theorem parseFilename_table (filename : String)
    (h : strTruthy filename = true) :
    parseFilename filename =
      [("FILE_TYPE", PyVal.str (specFileTypeLabel
        (pyToLower (pyStripDots (pySplitextExt filename)))))] := by
  unfold parseFilename
  rw [if_pos h]
  generalize pyToLower (pyStripDots (pySplitextExt filename)) = ext
  show dictSet [("FILE_TYPE", PyVal.str "")] "FILE_TYPE" (PyVal.str
      (if ext = "pdf" then "Adobe PDF"
       else if ext = "dwg" then "AUTOCAD DWG"
       else if ext = "doc" || ext = "docx" || ext = "docm" then "MS Word"
       else if ext = "ppt" || ext = "pptx" || ext = "pptm" then
         "MS PowerPoint"
       else if ext = "xls" || ext = "xlsx" || ext = "xlsm" || ext = "xlst"
         then "MS Excel"
       else if ext = "mpp" || ext = "mpt" then "MS Project"
       else if ext = "vsd" || ext = "vsdx" || ext = "vsdm" then "MS Visio"
       else if ext = "txt" || ext = "csv" || ext = "ini" then "Txt"
       else pyToUpper ext)) =
    [("FILE_TYPE", PyVal.str (specFileTypeLabel ext))]
  have hds : ∀ v, dictSet [("FILE_TYPE", PyVal.str "")] "FILE_TYPE" v =
      [("FILE_TYPE", v)] := fun v => rfl
  rw [hds]
  suffices hxy : (if ext = "pdf" then "Adobe PDF"
       else if ext = "dwg" then "AUTOCAD DWG"
       else if ext = "doc" || ext = "docx" || ext = "docm" then "MS Word"
       else if ext = "ppt" || ext = "pptx" || ext = "pptm" then
         "MS PowerPoint"
       else if ext = "xls" || ext = "xlsx" || ext = "xlsm" || ext = "xlst"
         then "MS Excel"
       else if ext = "mpp" || ext = "mpt" then "MS Project"
       else if ext = "vsd" || ext = "vsdx" || ext = "vsdm" then "MS Visio"
       else if ext = "txt" || ext = "csv" || ext = "ini" then "Txt"
       else pyToUpper ext) = specFileTypeLabel ext by rw [hxy]
  by_cases e1 : ext = "pdf"
  · subst e1; decide
  by_cases e2 : ext = "dwg"
  · subst e2; decide
  by_cases e3 : ext = "doc"
  · subst e3; decide
  by_cases e4 : ext = "docx"
  · subst e4; decide
  by_cases e5 : ext = "docm"
  · subst e5; decide
  by_cases e6 : ext = "ppt"
  · subst e6; decide
  by_cases e7 : ext = "pptx"
  · subst e7; decide
  by_cases e8 : ext = "pptm"
  · subst e8; decide
  by_cases e9 : ext = "xls"
  · subst e9; decide
  by_cases e10 : ext = "xlsx"
  · subst e10; decide
  by_cases e11 : ext = "xlsm"
  · subst e11; decide
  by_cases e12 : ext = "xlst"
  · subst e12; decide
  by_cases e13 : ext = "mpp"
  · subst e13; decide
  by_cases e14 : ext = "mpt"
  · subst e14; decide
  by_cases e15 : ext = "vsd"
  · subst e15; decide
  by_cases e16 : ext = "vsdx"
  · subst e16; decide
  by_cases e17 : ext = "vsdm"
  · subst e17; decide
  by_cases e18 : ext = "txt"
  · subst e18; decide
  by_cases e19 : ext = "csv"
  · subst e19; decide
  by_cases e20 : ext = "ini"
  · subst e20; decide
  have hb : ∀ t : String, ext ≠ t → (ext == t) = false := fun t ht =>
    beq_eq_false_iff_ne.mpr ht
  simp [e1, e2, e3, e4, e5, e6, e7, e8, e9, e10, e11, e12, e13, e14, e15,
    e16, e17, e18, e19, e20, specFileTypeLabel, fileTypeTable, List.lookup,
    hb _ e1, hb _ e2, hb _ e3, hb _ e4, hb _ e5, hb _ e6, hb _ e7, hb _ e8,
    hb _ e9, hb _ e10, hb _ e11, hb _ e12, hb _ e13, hb _ e14, hb _ e15,
    hb _ e16, hb _ e17, hb _ e18, hb _ e19, hb _ e20]

/-- C8: for every non-empty filename, `parseFilename` returns a single
`FILE_TYPE` entry whose label is the lower-cased, dot-stripped extension
mapped through the fixed extension table, with unmapped extensions passed
through upper-cased — in particular `"Spec.DOCX"` yields `"MS Word"` and
`"plan.xyz"` yields `"XYZ"`. -/
theorem claim8_file_type (filename : String)
    (h : strTruthy filename = true) :
    parseFilename filename =
      [("FILE_TYPE", PyVal.str (specFileTypeLabel
        (pyToLower (pyStripDots (pySplitextExt filename)))))] ∧
    parseFilename "Spec.DOCX" = [("FILE_TYPE", PyVal.str "MS Word")] ∧
    parseFilename "plan.xyz" = [("FILE_TYPE", PyVal.str "XYZ")] :=
  ⟨parseFilename_table filename h, by decide, by decide⟩

/-! ## Claim C2 -/

/-- C2, counterexample: the scenario exactly as claimed — owner mark on the
forum only, none on any document.  The forum is selected (owner mark and
docshare present) and `D2` has upload content, yet `writeMigrationXLSX`
emits no row at all: `docOwner` is set only from yielded document nodes,
and a forum's own mark never opens a scope. -/
theorem claim2_counterexample :
    truthyO (dictGet (scenClaim.forums.node 1).attrs "OWNER") = true ∧
    truthyO (dictGet (((scenClaim.docshares.lookup 1).getD
        EDMTree.empty).node 2).attrs "UPLOADFILEINFO") = true ∧
    writeMigrationRows scenClaim = Except.ok [] := by
  refine ⟨by decide, by decide, by decide⟩

/-- C2 (amended): with the owner mark on the docshare's top document `D1`
(owner `alice`) — the forum mark only selects the forum — the row builder
emits exactly one row, for `D2`, with File Type `Adobe PDF` (column 24) and
Date Posted parsed to a temporal value (column 26), and none for `D1` (no
upload content).  In general a visit step extends the row list only when
the node is within an owned scope after its own mark is considered and its
`UPLOADFILEINFO` or `FILE_NAME_DE` is non-empty. -/
theorem claim2_migration_scenario :
    writeMigrationRows scenAmended = Except.ok [d2Row] ∧
    d2Row.getD 24 (.str "") = PyVal.str "Adobe PDF" ∧
    d2Row.getD 26 (.str "") = PyVal.time ⟨2021, 1, 1, 0, 0, 0⟩ ∧
    ∀ (fn : String) (ftv : Option PyVal) (acc : MigAcc) (k : Nat)
      (macc : MigAcc), acc.stopped = false →
      migStep fn ftv acc (Event.visit k) = Except.ok macc →
      macc.rows ≠ acc.rows →
      truthyO (ownVisit acc.dstore acc.own k).docOwner = true ∧
      (truthyO (dictGet (acc.dstore.getD k rootNode).attrs
          "UPLOADFILEINFO") ||
       truthyO (dictGet (acc.dstore.getD k rootNode).attrs
          "FILE_NAME_DE")) = true := by
  refine ⟨by decide, by decide, by decide, ?_⟩
  intro fn ftv acc k macc hstop hok hne
  simp only [migStep, hstop, Bool.false_eq_true, if_false] at hok
  by_cases h1 : (ownVisit acc.dstore acc.own k).docOwner =
      some (PyVal.str "STOP!")
  · rw [if_pos h1] at hok
    injection hok with h
    subst h
    exact absurd rfl hne
  · rw [if_neg h1] at hok
    by_cases h2 : (truthyO (ownVisit acc.dstore acc.own k).docOwner &&
        (truthyO (dictGet (acc.dstore.getD k rootNode).attrs
            "UPLOADFILEINFO") ||
         truthyO (dictGet (acc.dstore.getD k rootNode).attrs
            "FILE_NAME_DE"))) = true
    · rw [Bool.and_eq_true] at h2
      exact h2
    · rw [if_neg h2] at hok
      injection hok with h
      subst h
      exact absurd rfl hne

/-- The amended scenario's docshare and the loop state just after `D1`
opened the scope, used to witness the emission guard at `D2`'s visit. -/
def claim2DS : EDMTree :=
  ((EDMTree.empty.insert "D1" (("OWNER", PyVal.str "alice") :: d1Attrs)
    "None").insert "D2" d2Attrs "D1").index

def claim2Acc : MigAcc :=
  { dstore := claim2DS.store,
    own := { docOwner := some (.str "alice"), treeTop := some "D1" },
    rows := [], stopped := false }

/-- C2, witness. -/
theorem claim2_witness :
    writeMigrationRows scenAmended = Except.ok [d2Row] ∧
    ∃ macc, migStep "F1" (some (PyVal.str "Forum One")) claim2Acc
        (Event.visit 2) = Except.ok macc ∧
      truthyO (ownVisit claim2Acc.dstore claim2Acc.own 2).docOwner = true ∧
      (truthyO (dictGet (claim2Acc.dstore.getD 2 rootNode).attrs
          "UPLOADFILEINFO") ||
       truthyO (dictGet (claim2Acc.dstore.getD 2 rootNode).attrs
          "FILE_NAME_DE")) = true := by
  have hmain := claim2_migration_scenario
  refine ⟨hmain.1, ?_⟩
  have hlen : Except.map (fun a : MigAcc => a.rows.length)
      (migStep "F1" (some (PyVal.str "Forum One")) claim2Acc
        (Event.visit 2)) = Except.ok 1 := by decide
  cases hstep : migStep "F1" (some (PyVal.str "Forum One")) claim2Acc
      (Event.visit 2) with
  | error e =>
    rw [hstep] at hlen
    simp [Except.map] at hlen
  | ok macc =>
    rw [hstep] at hlen
    simp only [Except.map] at hlen
    injection hlen with hl
    have hne : macc.rows ≠ claim2Acc.rows := by
      intro hc
      rw [hc] at hl
      simp [claim2Acc] at hl
    obtain ⟨g1, g2⟩ := hmain.2.2.2 "F1" (some (PyVal.str "Forum One"))
      claim2Acc 2 macc rfl hstep hne
    exact ⟨macc, rfl, g1, g2⟩

/-! ## Claims C5 and C9 -/

/-- Length, `KidsOk` and `ResOk` for the child-reference pass output. -/
theorem assigned_traversal_facts (t : EDMTree) (hwf : WFb t = true) :
    t.assigned.length = t.lastId + 1 ∧
    KidsOk t.assigned t.resolve ∧ ResOk t.assigned t.resolve := by
  obtain ⟨hlen, _, _, _⟩ := WFb_parts t hwf
  obtain ⟨halen, hafields, hakids, hapar⟩ := assigned_spec t hwf
  have hal : t.assigned.length = t.lastId + 1 := by rw [halen, hlen]
  refine ⟨hal, ?_, ?_⟩
  · intro j hj
    rw [hakids j, hal]
    simp
  · intro k hk0 hklen
    rw [hal]
    have := WF_resolve_lt t hwf k
    omega

/-- The depth pass changes no kids list and no name, so the indexed store
traverses exactly as the child-reference pass output does. -/
theorem index_dfs_eq_assigned (t : EDMTree) :
    ∀ fuel k, dfsEvents (t.index).store false fuel k =
      dfsEvents t.assigned false fuel k := by
  have heq : (t.index).store =
      (dfsVisits t.assigned false t.assigned.length 0).foldl depthStep
        t.assigned := rfl
  refine dfs_congr _ _ false fun i => ⟨?_, ?_⟩
  · rw [heq]
    exact (depthFold_fields _ _ i).2.2.2.1
  · rw [heq]
    exact (depthFold_fields _ _ i).1

/-- C5, counterexample: a node whose parent name resolves to itself (a
parent-name cycle) is stored with itself as parent, is not a child of the
root, and the depth pass never reaches it: its depth stays unset rather
than equalling its parent's depth + 1. -/
theorem claim5_counterexample :
    (selfParentTree.node 1).name = "a" ∧
    (selfParentTree.node 1).parent = some 1 ∧
    (selfParentTree.node 0).kids = [] ∧
    (selfParentTree.node 1).depth = Option.none := by
  refine ⟨by decide, by decide, by decide, by decide⟩

/-- C5 (amended): after `index()` on a well-formed tree the synthetic root
has depth `-1`, the root's kids are exactly the keys whose resolved parent
(through the name index, falling back to key 0 for absent parent names) is
the root, and every node reachable from the root — but only those — has
`depth` = its resolved parent's `depth` + 1; nodes on parent-name cycles
keep no depth at all. -/
theorem claim5_index_depth (t : EDMTree) (hwf : WFb t = true) :
    ((t.index).store.getD 0 rootNode).depth = some (-1) ∧
    ((t.index).store.getD 0 rootNode).kids =
      (List.range' 1 t.lastId).filter (fun k => t.resolve k == 0) ∧
    ∀ v ∈ dfsVisits (t.index).store false (t.lastId + 1) 0,
      ∃ dp : Int,
        ((t.index).store.getD (t.resolve v) rootNode).depth = some dp ∧
        ((t.index).store.getD v rootNode).depth = some (dp + 1) := by
  obtain ⟨hlen, _, hroot0, hdepth0⟩ := WFb_parts t hwf
  obtain ⟨halen, hafields, hakids, hapar⟩ := assigned_spec t hwf
  obtain ⟨hal, hkcA, hresA⟩ := assigned_traversal_facts t hwf
  obtain ⟨hilen, hkcI, hresI, hnamesI, hrkidsI⟩ := index_store_facts t hwf
  set V := dfsVisits t.assigned false t.assigned.length 0 with hV
  have heq : (t.index).store = V.foldl depthStep t.assigned := rfl
  have h0lt : 0 < t.assigned.length := by rw [hal]; omega
  have h0nm : 0 ∉ V := by
    intro h0
    obtain ⟨hpos, _, _⟩ := dfs_visits_rank t.assigned t.resolve hkcA hresA
      t.assigned.length 0 0 0 h0lt (toRoot_zero_fuel _ _) (by omega) h0
    omega
  have hnd : V.Nodup := dfs_visits_nodup t.assigned t.resolve hkcA hresA
    t.assigned.length 0 0 h0lt (toRoot_zero_fuel _ _) (by omega)
  have hprec : ∀ a v b, V = a ++ v :: b →
      t.resolve v = 0 ∨ t.resolve v ∈ ([] : List Nat) ++ a := by
    intro a v b hsp
    have hvmem : v ∈ V := by
      rw [hsp]
      exact List.mem_append_right _ (List.mem_cons_self _ _)
    have hv0 : v ≠ 0 := fun hc => h0nm (hc ▸ hvmem)
    rcases dfs_visits_parent t.assigned t.resolve hkcA hresA
        t.assigned.length 0 0 a v b h0lt (toRoot_zero_fuel _ _) (by omega)
        hsp with h | h
    · exact absurd h hv0
    · rcases List.mem_cons.mp h with h | h
      · exact Or.inl h
      · exact Or.inr (by simpa using h)
  have hvfacts : ∀ v ∈ V, v < t.assigned.length ∧
      (t.assigned.getD v rootNode).parent = some (t.resolve v) := by
    intro v hv
    obtain ⟨hpos, hvlt, _⟩ := dfs_visits_rank t.assigned t.resolve hkcA hresA
      t.assigned.length 0 0 v h0lt (toRoot_zero_fuel _ _) (by omega) hv
    refine ⟨hvlt, ?_⟩
    refine hapar v ?_
    rw [List.mem_range'_1]
    rw [hal] at hvlt
    omega
  have hrootA : (t.assigned.getD 0 rootNode).depth = some (-1) := by
    rw [(hafields 0).2.2.2]
    exact hdepth0
  have hmain := depth_fold_go t.resolve V [] t.assigned
    (by simpa using hnd) h0nm hprec (by intro x hx; simp at hx)
    hvfacts hrootA (by intro x hx; simp at hx)
  have hVeq : dfsVisits (t.index).store false (t.lastId + 1) 0 = V := by
    rw [hV, ← hal]
    unfold dfsVisits
    rw [index_dfs_eq_assigned t t.assigned.length 0]
  refine ⟨?_, hrkidsI, ?_⟩
  · rw [heq, depthFold_depth_not_mem V t.assigned 0 h0nm]
    exact hrootA
  · intro v hv
    rw [heq]
    exact hmain v (hVeq ▸ hv)

/-- C5, witness. -/
theorem claim5_witness :
    ((adoptTreeBase.index).store.getD 0 rootNode).depth = some (-1) ∧
    ((adoptTreeBase.index).store.getD 0 rootNode).kids =
      (List.range' 1 adoptTreeBase.lastId).filter
        (fun k => adoptTreeBase.resolve k == 0) ∧
    ∀ v ∈ dfsVisits (adoptTreeBase.index).store false
        (adoptTreeBase.lastId + 1) 0,
      ∃ dp : Int,
        ((adoptTreeBase.index).store.getD (adoptTreeBase.resolve v)
          rootNode).depth = some dp ∧
        ((adoptTreeBase.index).store.getD v rootNode).depth =
          some (dp + 1) :=
  claim5_index_depth adoptTreeBase (by decide)

/-- C9, counterexample: on a parent-name cycle both nodes are stored, but a
full `depthFirst` walk from the synthetic root fires the hook only for the
root — not once per stored node. -/
theorem claim9_counterexample :
    cycleTree.store.length = 3 ∧
    (cycleTree.node 1).name = "a" ∧ (cycleTree.node 2).name = "b" ∧
    doneNames (dfsEvents cycleTree.store false cycleTree.store.length 0) =
      ["000_EDMTree_Root"] := by
  refine ⟨by decide, by decide, by decide, by decide⟩

/-- C9 (amended): on an indexed well-formed tree, a full `depthFirst` walk
from the synthetic root fires `doneHook` exactly once per yielded
(root-reachable) node plus once for the synthetic root itself — as
multisets, the hook names are the root's name together with the names of
the yielded nodes; every yielded node's complete subtree traversal is a
contiguous segment ending with that node's hook firing; the root itself is
never yielded; and the final callback of the walk is
`doneHook("000_EDMTree_Root")`. -/
theorem claim9_done_hook (t : EDMTree) (hwf : WFb t = true) :
    (doneNames (dfsEvents (t.index).store false (t.lastId + 1) 0)).Perm
      ("000_EDMTree_Root" ::
        ((dfsVisits (t.index).store false (t.lastId + 1) 0).map
          fun v => ((t.index).store.getD v rootNode).name)) ∧
    (∀ v ∈ dfsVisits (t.index).store false (t.lastId + 1) 0,
      0 < v ∧
      ∃ pre post,
        dfsEvents (t.index).store false (t.lastId + 1) 0 =
          pre ++ dfsEvents (t.index).store false (t.lastId + 1) v ++ post ∧
        (dfsEvents (t.index).store false (t.lastId + 1) v).getLast? =
          some (Event.done ((t.index).store.getD v rootNode).name)) ∧
    (dfsEvents (t.index).store false (t.lastId + 1) 0).getLast? =
      some (Event.done "000_EDMTree_Root") := by
  obtain ⟨hilen, hkc, hres, hnames, _⟩ := index_store_facts t hwf
  obtain ⟨_, _, hroot0, _⟩ := WFb_parts t hwf
  set s := (t.index).store with hs
  have hrootname : (s.getD 0 rootNode).name = "000_EDMTree_Root" := by
    rw [hnames 0]
    exact hroot0
  have h0lt : 0 < s.length := by rw [hilen]; omega
  refine ⟨?_, ?_, ?_⟩
  · have hperm := dfs_done_perm_root s t.resolve hkc t.lastId h0lt
    rw [hrootname] at hperm
    exact hperm
  · intro v hv
    obtain ⟨hvpos, hvlt, _⟩ := dfs_visits_rank s t.resolve hkc hres
      (t.lastId + 1) 0 0 v h0lt (toRoot_zero_fuel _ _) (by omega) hv
    obtain ⟨pre, post, hsp⟩ := dfs_subtree_infix s t.resolve hkc hres
      (t.lastId + 1) 0 0 v h0lt (toRoot_zero_fuel _ _) (by omega) hv
    rw [hilen] at hsp
    exact ⟨hvpos, pre, post, hsp, dfs_last_done s false t.lastId v⟩
  · rw [← hrootname]
    exact dfs_last_done s false t.lastId 0

/-- C9, witness. -/
theorem claim9_witness :
    (doneNames (dfsEvents (ownerTreeBase.index).store false
        (ownerTreeBase.lastId + 1) 0)).Perm
      ("000_EDMTree_Root" ::
        ((dfsVisits (ownerTreeBase.index).store false
            (ownerTreeBase.lastId + 1) 0).map
          fun v => ((ownerTreeBase.index).store.getD v rootNode).name)) ∧
    (∀ v ∈ dfsVisits (ownerTreeBase.index).store false
        (ownerTreeBase.lastId + 1) 0,
      0 < v ∧
      ∃ pre post,
        dfsEvents (ownerTreeBase.index).store false
            (ownerTreeBase.lastId + 1) 0 =
          pre ++ dfsEvents (ownerTreeBase.index).store false
            (ownerTreeBase.lastId + 1) v ++ post ∧
        (dfsEvents (ownerTreeBase.index).store false
            (ownerTreeBase.lastId + 1) v).getLast? =
          some (Event.done
            ((ownerTreeBase.index).store.getD v rootNode).name)) ∧
    (dfsEvents (ownerTreeBase.index).store false
        (ownerTreeBase.lastId + 1) 0).getLast? =
      some (Event.done "000_EDMTree_Root") :=
  claim9_done_hook ownerTreeBase (by decide)

/-! ## Claim C1 -/

/-- C1: ownership propagation.  For every store, whenever `depthFirst`
reaches a node `k` carrying an owner mark while no scope is active (and no
node of `k`'s subtree shares `k`'s name, so the hook comparison fires only
at the scope root), the walk over `k`'s whole subtree records `k`'s owner
mark as the effective owner of `k` and of every yielded descendant, the
inner marks never being consulted, and the scope is cleared exactly by the
final `doneHook` firing with the scope root's name — so the state ends with
no active owner and a later sibling marked `Z` starts its own scope.  On the
spec's example tree the effective owners are `A, B, C ↦ X` (the inner mark
`Y` masked) and `D, E ↦ Z`. -/
theorem claim1_ownership_scope (store : List Node) (s₀ : OwnState)
    (fuel k : Nat) (hk : k ≠ 0)
    (hnoscope : truthyO s₀.docOwner = false)
    (how : truthyO (dictGet (store.getD k rootNode).attrs "OWNER") = true)
    (hnames : ∀ nm, Event.done nm ∈
        ((store.getD k rootNode).kids.flatMap fun c =>
          dfsEvents store false fuel c) →
      nm ≠ (store.getD k rootNode).name) :
    ownRun store s₀ (dfsEvents store false (fuel + 1) k) =
      ({ docOwner := Option.none,
         treeTop := some (store.getD k rootNode).name },
       (k :: ((store.getD k rootNode).kids.flatMap fun c =>
           dfsVisits store false fuel c)).map
         fun v => (v, dictGet (store.getD k rootNode).attrs "OWNER")) ∧
    effOwners ownerTree =
      [(1, some (PyVal.str "X")), (2, some (PyVal.str "X")),
       (3, some (PyVal.str "X")), (4, some (PyVal.str "Z")),
       (5, some (PyVal.str "Z"))] := by
  constructor
  · set n := store.getD k rootNode with hn
    set ow := dictGet n.attrs "OWNER" with howd
    set L := n.kids.flatMap (fun c => dfsEvents store false fuel c) with hL
    have hev : dfsEvents store false (fuel + 1) k =
        Event.visit k :: (L ++ [Event.done n.name]) := by
      rw [dfsEvents_succ, if_pos hk, ← hn, ← hL]
      simp
    have hs1 : ownStep store (s₀, []) (Event.visit k) =
        ({ docOwner := ow, treeTop := some n.name }, [(k, ow)]) := by
      show (ownVisit store s₀ k,
          [] ++ [(k, (ownVisit store s₀ k).docOwner)]) = _
      have hv : ownVisit store s₀ k =
          { docOwner := ow, treeTop := some n.name } := by
        simp only [ownVisit]
        rw [← hn, ← howd, how, hnoscope]
        rfl
      rw [hv]
      rfl
    have hlast : ∀ out : List (Nat × Option PyVal),
        List.foldl (ownStep store)
          ({ docOwner := ow, treeTop := some n.name }, out)
          [Event.done n.name] =
        ({ docOwner := Option.none, treeTop := some n.name }, out) := by
      intro out
      show (ownDone { docOwner := ow, treeTop := some n.name } n.name,
        out) = _
      unfold ownDone
      rw [if_pos rfl]
    unfold ownRun
    rw [hev, List.foldl_cons, hs1, List.foldl_append,
      ownRun_inertia store L { docOwner := ow, treeTop := some n.name }
        [(k, ow)] how
        (fun nm hm hc => hnames nm hm (Option.some.inj hc).symm),
      hlast]
    rw [filterMap_visit_pair L
      ({ docOwner := ow, treeTop := some n.name } : OwnState).docOwner]
    rw [hL, visitKeys_flatMap]
    simp [dfsVisits]
  · decide

/-- C1, witness: the marked node `A` (key 1) of the example tree, entered
with no active scope. -/
theorem claim1_witness :
    (ownRun ownerTree.store {} (dfsEvents ownerTree.store false (4 + 1) 1) =
      ({ docOwner := Option.none,
         treeTop := some (ownerTree.store.getD 1 rootNode).name },
       (1 :: ((ownerTree.store.getD 1 rootNode).kids.flatMap fun c =>
           dfsVisits ownerTree.store false 4 c)).map
         fun v =>
           (v, dictGet (ownerTree.store.getD 1 rootNode).attrs "OWNER")) ∧
    effOwners ownerTree =
      [(1, some (PyVal.str "X")), (2, some (PyVal.str "X")),
       (3, some (PyVal.str "X")), (4, some (PyVal.str "Z")),
       (5, some (PyVal.str "Z"))]) := by
  refine claim1_ownership_scope ownerTree.store {} 4 1 (by decide) (by decide)
    (by decide) ?_
  have hLconc : ((ownerTree.store.getD 1 rootNode).kids.flatMap fun c =>
      dfsEvents ownerTree.store false 4 c) =
      [Event.visit 2, Event.visit 3, Event.done "C", Event.done "B"] := by
    decide
  have hname : (ownerTree.store.getD 1 rootNode).name = "A" := by decide
  rw [hLconc, hname]
  intro nm hm
  simp only [List.mem_cons, List.mem_singleton] at hm
  rcases hm with hm | hm | hm | hm
  · exact absurd hm (by simp)
  · exact absurd hm (by simp)
  · rw [Event.done.injEq] at hm
    subst hm
    decide
  · rcases hm with hm | hm
    · rw [Event.done.injEq] at hm
      subst hm
      decide
    · simp at hm

/-- C8, witness. -/
theorem claim8_witness :
    parseFilename "Spec.DOCX" =
      [("FILE_TYPE", PyVal.str (specFileTypeLabel
        (pyToLower (pyStripDots (pySplitextExt "Spec.DOCX")))))] ∧
    parseFilename "Spec.DOCX" = [("FILE_TYPE", PyVal.str "MS Word")] ∧
    parseFilename "plan.xyz" = [("FILE_TYPE", PyVal.str "XYZ")] :=
  claim8_file_type "Spec.DOCX" (by decide)

end EDMOracle
